import Mathlib

/-!
# Key-space filters of the donut client (`client/common.go`)

A shallow embedding of the six helpers of `client/common.go`
(`filterPrefix`, `removePrefix`, `filterDelimited`, `filterNotDelimited`,
`extractDir`, `uniqueObjects`) together with the parts of the Go standard
library they call (`strings.HasPrefix`, `strings.TrimPrefix`, `strings.Index`,
`strings.Contains`, `strings.Split`, `sort.Strings`, the built-in map).

A Go `string` is an immutable sequence of bytes; it is modelled as a list of
bytes.  A `[]string` is modelled as a list of strings.  A run-time panic is
modelled by `none`.
-/

namespace Donut

/-- One byte of a Go string. -/
abbrev Byte := Fin 256

/-- A Go `string`: a finite sequence of bytes. -/
abbrev GoString := List Byte

/-- The bytes of a Lean string literal whose characters are all ASCII; used to
write concrete keys such as `"a/b"`. -/
def ascii (s : String) : GoString := s.data.map (fun c => Fin.ofNat c.toNat)

/-- The Go string literal `"/"`. -/
def slash : GoString := [47]

/-! ## `strings` -/

/-- Go `strings.HasPrefix`:
`len(s) >= len(prefix) && s[0:len(prefix)] == prefix`. -/
def HasPrefix (s pre : GoString) : Bool :=
  decide (pre.length ≤ s.length) && decide (s.take pre.length = pre)

/-- Go `strings.TrimPrefix`:
`if HasPrefix(s, prefix) { return s[len(prefix):] }; return s`. -/
def TrimPrefix (s pre : GoString) : GoString :=
  if HasPrefix s pre then s.drop pre.length else s

/-- Go `strings.Index`: the index of the first instance of `substr` in `s`,
or `-1` if `substr` is not present in `s`. -/
def Index : GoString → GoString → Int
  | [], substr => if HasPrefix [] substr then 0 else -1
  | c :: s, substr =>
    if HasPrefix (c :: s) substr then 0
    else
      let i := Index s substr
      if i < 0 then -1 else i + 1

/-- Go `strings.Contains`: `Index(s, substr) >= 0`. -/
def Contains (s substr : GoString) : Bool := decide (0 ≤ Index s substr)

/-- Go `utf8.first`, low three bits: the length a UTF-8 sequence must have
when it starts with the byte `b0`; `1` for an ASCII byte and for a byte that
starts no sequence. -/
def runeSize (b0 : Byte) : Nat :=
  if b0.val < 0xC2 then 1
  else if b0.val < 0xE0 then 2
  else if b0.val < 0xF0 then 3
  else if b0.val < 0xF5 then 4
  else 1

/-- Go `utf8.acceptRanges`: whether `b1` may follow the leading byte `b0`. -/
def acceptSecond (b0 b1 : Byte) : Bool :=
  let lo : Nat := if b0.val = 0xE0 then 0xA0 else if b0.val = 0xF0 then 0x90 else 0x80
  let hi : Nat := if b0.val = 0xED then 0x9F else if b0.val = 0xF4 then 0x8F else 0xBF
  decide (lo ≤ b1.val) && decide (b1.val ≤ hi)

/-- A UTF-8 continuation byte, `0x80 ≤ b ≤ 0xBF`. -/
def isContinuation (b : Byte) : Bool := decide (0x80 ≤ b.val) && decide (b.val ≤ 0xBF)

/-- Go `utf8.DecodeRuneInString`, width only: the number of bytes of the first
UTF-8 sequence of `s` (`0` for the empty string, `1` for an invalid or
truncated sequence). -/
def runeWidth : GoString → Nat
  | [] => 0
  | b0 :: rest =>
    if runeSize b0 = 1 then 1
    else if rest.length + 1 < runeSize b0 then 1
    else
      match rest with
      | [] => 1
      | b1 :: rest1 =>
        if !acceptSecond b0 b1 then 1
        else if runeSize b0 = 2 then 2
        else
          match rest1 with
          | [] => 1
          | b2 :: rest2 =>
            if !isContinuation b2 then 1
            else if runeSize b0 = 3 then 3
            else
              match rest2 with
              | [] => 1
              | b3 :: _ => if !isContinuation b3 then 1 else 4

/-- Go `strings.explode(s, -1)`: `s` cut into its UTF-8 sequences, invalid
bytes being cut off one at a time (the behaviour of current Go releases).  The
first argument bounds the number of cuts; every cut removes at least one byte,
so `len(s)` cuts are enough (`explode_fuel`). -/
def explode : Nat → GoString → List GoString
  | 0, _ => []
  | _ + 1, [] => []
  | n + 1, c :: s =>
    let w := runeWidth (c :: s)
    (c :: s).take w :: explode n ((c :: s).drop w)

/-- Go `strings.genSplit(s, sep, 0, -1)` for a non-empty `sep`: cut `s` at
every non-overlapping instance of `sep`, left to right.  The first argument
bounds the number of cuts (Go computes `Count(s, sep)`; `len(s)` is never
exceeded because a cut consumes at least one byte, `genSplit_fuel`). -/
def genSplit : Nat → GoString → GoString → List GoString
  | 0, s, _ => [s]
  | n + 1, s, sep =>
    let m := Index s sep
    if m < 0 then [s]
    else s.take m.toNat :: genSplit n (s.drop (m.toNat + sep.length)) sep

/-- Go `strings.Split(s, sep)`: with an empty `sep` the string is exploded
into UTF-8 sequences, otherwise it is cut at every instance of `sep`. -/
def Split (s sep : GoString) : List GoString :=
  if sep = [] then explode s.length s else genSplit s.length s sep

/-! ## `sort` and string comparison -/

/-- Go `a < b` on strings: byte-wise lexicographic comparison. -/
def strLess : GoString → GoString → Bool
  | [], [] => false
  | [], _ :: _ => true
  | _ :: _, [] => false
  | a :: as, b :: bs =>
    if a < b then true else if b < a then false else strLess as bs

/-- Insert `a` into an ascending list, before the first element that is
not less than `a`. -/
def insertSorted (a : GoString) : List GoString → List GoString
  | [] => [a]
  | b :: l => if strLess b a then b :: insertSorted a l else a :: b :: l

/-- Go `sort.Strings`: sorts a slice of strings in increasing order.  Strings
that compare equal are identical, so every correct sorting algorithm returns
the same slice (`Strings_unique`); insertion sort is used here. -/
def Strings : List GoString → List GoString
  | [] => []
  | a :: l => insertSorted a (Strings l)

/-- A slice in increasing order: no later element is less than an earlier
one. -/
def Ascending (l : List GoString) : Prop := l.Pairwise (fun a b => strLess b a = false)

/-- A slice in strictly increasing order: every earlier element is less than
every later one. -/
def StrictAscending (l : List GoString) : Prop := l.Pairwise (fun a b => strLess a b = true)

instance (l : List GoString) : Decidable (Ascending l) := by
  unfold Ascending
  infer_instance

instance (l : List GoString) : Decidable (StrictAscending l) := by
  unfold StrictAscending
  infer_instance

/-! ## The built-in map -/

/-- A Go `map[string]string`: an association list with pairwise distinct
keys. -/
abbrev GoMap := List (GoString × GoString)

/-- Go `m[k] = v`: overwrite the value of an existing key, or add the key. -/
def mapAssign : GoMap → GoString → GoString → GoMap
  | [], k, v => [(k, v)]
  | (k0, v0) :: m, k, v =>
    if k0 = k then (k0, v) :: m else (k0, v0) :: mapAssign m k v

/-- The keys held by a map. -/
def mapKeys (m : GoMap) : List GoString := m.map Prod.fst

/-- The order in which one `for k := range m` visits the keys of a map.  Go
leaves it unspecified; it is some rearrangement of the keys. -/
abbrev RangeOrder := List GoString → List GoString

/-- A range order is admissible when it visits every key exactly once. -/
def RangeOrder.Admissible (order : RangeOrder) : Prop :=
  ∀ keys : List GoString, List.Perm (order keys) keys

/-! ## `client/common.go` -/

/-- The function `filterPrefix` of `client/common.go`. -/
def filterPrefix (objects : List GoString) (pre : GoString) : List GoString :=
  objects.foldl
    (fun results object => if HasPrefix object pre then results ++ [object] else results) []

/-- The function `removePrefix` of `client/common.go`. -/
def removePrefix (objects : List GoString) (pre : GoString) : List GoString :=
  objects.foldl (fun results object => results ++ [TrimPrefix object pre]) []

/-- The function `filterDelimited` of `client/common.go`. -/
def filterDelimited (objects : List GoString) (delim : GoString) : List GoString :=
  objects.foldl
    (fun results object => if !Contains object delim then results ++ [object] else results) []

/-- The function `filterNotDelimited` of `client/common.go`. -/
def filterNotDelimited (objects : List GoString) (delim : GoString) : List GoString :=
  objects.foldl
    (fun results object => if Contains object delim then results ++ [object] else results) []

/-- The loop of `extractDir`: `results` is the slice built so far.  Indexing
`parts[0]` panics when `strings.Split` returned no part. -/
def extractDirLoop (delim : GoString) : List GoString → List GoString → Option (List GoString)
  | results, [] => some results
  | results, object :: rest =>
    match Split object delim with
    | [] => none
    | part0 :: _ => extractDirLoop delim (results ++ [part0 ++ slash]) rest

/-- The function `extractDir` of `client/common.go`; `none` is the
index-out-of-range panic. -/
def extractDir (objects : List GoString) (delim : GoString) : Option (List GoString) :=
  extractDirLoop delim [] objects

/-- The function `uniqueObjects` of `client/common.go`.  `order` is the order
in which the `range` loop visits the keys of `objectMap`. -/
def uniqueObjects (order : RangeOrder) (objects : List GoString) : List GoString :=
  let objectMap : GoMap := objects.foldl (fun m v => mapAssign m v v) []
  let results := (order (mapKeys objectMap)).foldl (fun results k => results ++ [k]) []
  Strings results

/-! ## Validator, namespace store and listing engine

The client behind `PutBucket`, `ListBuckets` and `ListObjects` is not among
the source files of `client/` (only its test suite is), so these operations
are modelled from sections 3, 4 and 7 of the specification.  The key-space
filters they are composed of are the functions of `client/common.go` above. -/

/-- Modelled from the spec: the error kinds of section 7 returned by the
namespace and listing operations; the client that raises them is missing from
the sources.  The opaque failure of the block engine is outside the model. -/
inductive StoreError where
  | InvalidName
  | InvalidKey
  | AlreadyExists
  | NoSuchBucket
  | NoSuchKey
  deriving DecidableEq

/-- Modelled from the spec: an Object (Item) of section 3, identified by its
key and carrying its size; the type is declared in the missing client.  The
content handle is opaque and left out. -/
structure Item where
  key : GoString
  size : Nat
  deriving DecidableEq

/-- Modelled from the spec: a Bucket of section 3, with its name, its creation
timestamp and the objects it owns; the type is declared in the missing
client. -/
structure Bucket where
  name : GoString
  created : Nat
  objects : List Item
  deriving DecidableEq

/-- Modelled from the spec: the Namespace Store of section 4.3, the buckets in
the order of their creation; the missing client holds it. -/
structure Store where
  buckets : List Bucket
  deriving DecidableEq

/-- Modelled from the spec: the whitespace trimmed by the Validator of section
4.1, taken to be the ASCII bytes tab, line feed, vertical tab, form feed,
carriage return and space; the validator is missing from the sources. -/
def isSpace (b : Byte) : Bool :=
  decide (b = 9) || decide (b = 10) || decide (b = 11) || decide (b = 12) ||
    decide (b = 13) || decide (b = 32)

/-- Modelled from the spec: "trimming leading/trailing whitespace" of section
4.1, used by the missing validator. -/
def TrimSpace (s : GoString) : GoString :=
  ((s.dropWhile isSpace).reverse.dropWhile isSpace).reverse

/-- Modelled from the spec: `ValidateBucketName` of section 4.1, missing from
the sources: it "fails (returns false) when name is empty or, after trimming
leading/trailing whitespace, empty". -/
def ValidateBucketName (name : GoString) : Bool :=
  !(decide (name = []) || decide (TrimSpace name = []))

/-- Modelled from the spec: the look-up of a bucket by its exact name in the
Namespace Store of section 4.3 ("names compared byte-exact"); the store is
missing from the sources. -/
def findBucket (st : Store) (name : GoString) : Option Bucket :=
  st.buckets.find? (fun b => decide (b.name = name))

/-- Modelled from the spec: `CreateBucket` of section 4.3, missing from the
sources: `InvalidName` if the Validator rejects, `AlreadyExists` if a bucket
with that exact name exists, otherwise the bucket is created with the
current timestamp `now`. -/
def CreateBucket (st : Store) (name : GoString) (now : Nat) : Except StoreError Store :=
  if ValidateBucketName name = false then Except.error StoreError.InvalidName
  else if (findBucket st name).isSome then Except.error StoreError.AlreadyExists
  else Except.ok (Store.mk (st.buckets ++ [Bucket.mk name now []]))

/-- Modelled from the spec: `PutBucket` of the Client Facade (sections 4.5 and
6), missing from the sources: it validates the name, delegates to
`CreateBucket`, and returns the store after the call with the error, if
any. -/
def PutBucket (st : Store) (name : GoString) (now : Nat) : Store × Option StoreError :=
  if ValidateBucketName name = false then (st, some StoreError.InvalidName)
  else
    match CreateBucket st name now with
    | Except.ok st2 => (st2, none)
    | Except.error e => (st, some e)

/-- Modelled from the spec: a caller of the missing client that issues
`PutBucket` calls in turn, each with its name and timestamp, and stops at the
first error, as the test suite does. -/
def putBuckets : Store → List (GoString × Nat) → Store × Option StoreError
  | st, [] => (st, none)
  | st, (name, now) :: rest =>
    match PutBucket st name now with
    | (st2, none) => putBuckets st2 rest
    | (st2, some e) => (st2, some e)

/-- Modelled from the spec: one step of sorting buckets "ascending by name"
for `ListBuckets` of section 4.3, missing from the sources. -/
def insertBucket (a : Bucket) : List Bucket → List Bucket
  | [] => [a]
  | b :: l => if strLess b.name a.name then b :: insertBucket a l else a :: b :: l

/-- Modelled from the spec: the buckets "sorted ascending by name", for
`ListBuckets` of section 4.3, missing from the sources. -/
def sortBuckets : List Bucket → List Bucket
  | [] => []
  | a :: l => insertBucket a (sortBuckets l)

/-- Modelled from the spec: `ListBuckets` of sections 4.3 and 6, missing from
the sources: "returns all buckets sorted ascending by name", and "empty store
yields an empty sequence, never an error". -/
def ListBuckets (st : Store) : List Bucket × Option StoreError :=
  (sortBuckets st.buckets, none)

/-- Modelled from the spec: a candidate of steps 6 to 9 of the listing
algorithm of section 4.4, missing from the sources: a prefix-relative name
that is either a direct entry or a pseudo-directory. -/
structure Entry where
  name : GoString
  isDir : Bool
  deriving DecidableEq

/-- Modelled from the spec: the order of candidates in step 6 of section 4.4,
missing from the sources: names "compared as plain strings", a
pseudo-directory sorting after an object of the same name. -/
def entryLess (a b : Entry) : Bool :=
  strLess a.name b.name || (decide (a.name = b.name) && !a.isDir && b.isDir)

/-- Modelled from the spec: one step of the merge of step 6 of section 4.4
into "one ascending-sorted candidate sequence"; missing from the sources. -/
def insertEntry (a : Entry) : List Entry → List Entry
  | [] => [a]
  | b :: l => if entryLess b a then b :: insertEntry a l else a :: b :: l

/-- Modelled from the spec: the merge of step 6 of section 4.4 into "one
ascending-sorted candidate sequence"; missing from the sources. -/
def sortEntries : List Entry → List Entry
  | [] => []
  | a :: l => insertEntry a (sortEntries l)

/-- Modelled from the spec: the Listing Page of section 3 returned by the
missing `ListObjects`: objects, common prefixes, truncation flag and the
marker for the next page. -/
structure ListingPage where
  objects : List Item
  commonPrefixes : List GoString
  isTruncated : Bool
  nextMarker : GoString
  deriving DecidableEq

/-- Modelled from the spec: the size recorded for a key in a bucket, read
"via Namespace Store" in step 9 of section 4.4; missing from the sources. -/
def objectSize (objects : List Item) (key : GoString) : Nat :=
  match objects.find? (fun o => decide (o.key = key)) with
  | some o => o.size
  | none => 0

/-- Modelled from the spec: steps 2 to 6 of the listing algorithm of section
4.4, missing from the sources: load the keys sorted, filter and strip the
prefix, and for a non-empty delimiter split the suffixes into direct entries
and the deduplicated pseudo-directories of the deeper ones; then merge both
into one sorted candidate sequence. -/
def listCandidates (order : RangeOrder) (objects : List Item) (pre delim : GoString) :
    List Entry :=
  let keys := Strings (objects.map Item.key)
  let suffixes := removePrefix (filterPrefix keys pre) pre
  let direct := if delim = [] then suffixes else filterDelimited suffixes delim
  let dirs :=
    if delim = [] then []
    else
      match extractDir (filterNotDelimited suffixes delim) delim with
      | some extracted => uniqueObjects order extracted
      | none => []
  sortEntries (direct.map (fun n => Entry.mk n false) ++ dirs.map (fun n => Entry.mk n true))

/-- Modelled from the spec: steps 7 to 9 of the listing algorithm of section
4.4, missing from the sources.  A candidate is returned under its full name,
the query prefix followed by its prefix-relative name: an object as "full key
+ size" (step 9), a common prefix so that a caller can re-invoke "with an
updated prefix equal to a returned common prefix" (section 9).  The marker is
a full name as well, the next marker being "re-prefixed by the caller on the
next call" (step 8), so step 7 discards the candidates whose full name is
"lexicographically ≤ marker", which is what makes the returned objects
"strictly follow marker" (section 3).  Step 8 keeps the first `maxKeys` of the
rest and sets the truncation flag and the next marker, "the last kept relative
name".  A bound `some k` is a number of entries and so a natural number; `none`
is the constant for unbounded; how a malformed `maxKeys` is normalised is left
open by section 7 and happens before this step. -/
def listPage (order : RangeOrder) (objects : List Item) (pre marker delim : GoString)
    (maxKeys : Option Nat) : ListingPage :=
  let remaining := (listCandidates order objects pre delim).filter
    (fun e => strLess marker (pre ++ e.name))
  let kept :=
    match maxKeys with
    | some k => remaining.take k
    | none => remaining
  let truncated :=
    match maxKeys with
    | some k => decide (k < remaining.length)
    | none => false
  let next :=
    if truncated then
      match kept.getLast? with
      | some e => e.name
      | none => []
    else []
  ListingPage.mk
    ((kept.filter (fun e => !e.isDir)).map
      (fun e => Item.mk (pre ++ e.name) (objectSize objects (pre ++ e.name))))
    ((kept.filter (fun e => e.isDir)).map (fun e => pre ++ e.name))
    truncated next

/-- Modelled from the spec: `ListObjects` of sections 4.4 and 6, missing from
the sources: `NoSuchBucket` if the bucket is absent, otherwise the page
computed from the keys of the bucket. -/
def ListObjects (order : RangeOrder) (st : Store) (bucket pre marker delim : GoString)
    (maxKeys : Option Nat) : Except StoreError ListingPage :=
  match findBucket st bucket with
  | none => Except.error StoreError.NoSuchBucket
  | some b => Except.ok (listPage order b.objects pre marker delim maxKeys)

/-! ## Facts about `strings` -/

theorem HasPrefix_iff (s pre : GoString) : HasPrefix s pre = true ↔ pre <+: s := by
  unfold HasPrefix
  rw [Bool.and_eq_true, decide_eq_true_iff, decide_eq_true_iff]
  constructor
  · rintro ⟨_, h⟩
    exact List.prefix_iff_eq_take.mpr h.symm
  · intro h
    exact ⟨h.length_le, (List.prefix_iff_eq_take.mp h).symm⟩

theorem HasPrefix_nil (s : GoString) : HasPrefix s [] = true :=
  (HasPrefix_iff s []).mpr List.nil_prefix

theorem TrimPrefix_restore {s pre : GoString} (h : pre <+: s) :
    pre ++ TrimPrefix s pre = s := by
  unfold TrimPrefix
  rw [if_pos ((HasPrefix_iff s pre).mpr h)]
  obtain ⟨t, rfl⟩ := h
  simp

theorem TrimPrefix_unchanged {s pre : GoString} (h : ¬ pre <+: s) :
    TrimPrefix s pre = s := by
  unfold TrimPrefix
  rw [if_neg (fun hp => h ((HasPrefix_iff s pre).mp hp))]

/-- The two outcomes of `strings.Index`: either `-1` and `substr` starts at no
offset of `s`, or the least offset at which `substr` starts. -/
theorem Index_cases (s substr : GoString) :
    (Index s substr = -1 ∧ ∀ j, HasPrefix (s.drop j) substr = false) ∨
    (∃ i : Nat, Index s substr = (i : Int) ∧ i ≤ s.length ∧
      HasPrefix (s.drop i) substr = true ∧ ∀ j, j < i → HasPrefix (s.drop j) substr = false) := by
  induction s with
  | nil =>
    unfold Index
    by_cases h : HasPrefix [] substr = true
    · right
      exact ⟨0, by simp [h], le_refl _, by simpa using h, fun j hj => absurd hj (Nat.not_lt_zero j)⟩
    · left
      exact ⟨by simp [h], fun j => by simpa using h⟩
  | cons c s ih =>
    unfold Index
    by_cases h : HasPrefix (c :: s) substr = true
    · right
      exact ⟨0, by simp [h], Nat.zero_le _, by simpa using h,
        fun j hj => absurd hj (Nat.not_lt_zero j)⟩
    · rw [Bool.not_eq_true] at h
      rcases ih with ⟨hi, hall⟩ | ⟨i, hi, hle, hpre, hmin⟩
      · left
        refine ⟨by simp [h, hi], fun j => ?_⟩
        cases j with
        | zero => simpa using h
        | succ j => simpa using hall j
      · right
        refine ⟨i + 1, ?_, by simpa using hle, by simpa using hpre, fun j hj => ?_⟩
        · have hneg : ¬ ((i : Int) < 0) := by omega
          simp [h, hi, hneg]
        · cases j with
          | zero => simpa using h
          | succ j => simpa using hmin j (by omega)

theorem Index_ge_neg_one (s substr : GoString) : -1 ≤ Index s substr := by
  rcases Index_cases s substr with ⟨h, _⟩ | ⟨i, h, _⟩ <;> omega

theorem infix_iff_exists_drop (s substr : GoString) :
    substr <:+: s ↔ ∃ j, substr <+: s.drop j := by
  constructor
  · rintro ⟨a, b, rfl⟩
    exact ⟨a.length, by simp⟩
  · rintro ⟨j, t, ht⟩
    refine ⟨s.take j, t, ?_⟩
    rw [List.append_assoc, ht, List.take_append_drop]

theorem Index_nonneg_iff (s substr : GoString) : 0 ≤ Index s substr ↔ substr <:+: s := by
  rw [infix_iff_exists_drop]
  rcases Index_cases s substr with ⟨h, hall⟩ | ⟨i, h, _, hpre, _⟩
  · constructor
    · intro h0
      omega
    · rintro ⟨j, hj⟩
      have := (HasPrefix_iff _ _).mpr hj
      rw [hall j] at this
      exact absurd this (by decide)
  · constructor
    · intro _
      exact ⟨i, (HasPrefix_iff _ _).mp hpre⟩
    · intro _
      omega

theorem Contains_iff (s substr : GoString) : Contains s substr = true ↔ substr <:+: s := by
  unfold Contains
  rw [decide_eq_true_iff, Index_nonneg_iff]

/-- When `substr` occurs in `s`, `Index` is the length of the part of `s` in
front of the first occurrence. -/
theorem Index_decomp {s substr : GoString} (h : substr <:+: s) :
    ∃ i : Nat, Index s substr = (i : Int) ∧
      s = s.take i ++ substr ++ s.drop (i + substr.length) ∧
      ∀ j, j < i → ¬ substr <+: s.drop j := by
  rcases Index_cases s substr with ⟨hi, _⟩ | ⟨i, hi, _, hpre, hmin⟩
  · have := (Index_nonneg_iff s substr).mpr h
    omega
  · refine ⟨i, hi, ?_, fun j hj hp => ?_⟩
    · obtain ⟨t, ht⟩ := (HasPrefix_iff _ _).mp hpre
      have hd : s.drop (i + substr.length) = t := by
        rw [← List.drop_drop, ← ht]
        simp
      rw [hd, List.append_assoc, ht, List.take_append_drop]
    · have := (HasPrefix_iff _ _).mpr hp
      rw [hmin j hj] at this
      exact absurd this (by decide)

theorem Index_nil_of_ne_nil {sep : GoString} (hsep : sep ≠ []) : Index [] sep = -1 := by
  cases sep with
  | nil => exact absurd rfl hsep
  | cons c t => simp [Index, HasPrefix]

/-- More cuts than bytes are never used by `genSplit`: the bound `len(s)` on
the number of cuts is as good as any larger one. -/
theorem genSplit_fuel {sep : GoString} (hsep : sep ≠ []) :
    ∀ (n m : Nat) (s : GoString), s.length ≤ n → s.length ≤ m →
      genSplit n s sep = genSplit m s sep := by
  have hnil : ∀ k, genSplit k [] sep = [[]] := by
    intro k
    cases k with
    | zero => rfl
    | succ k => simp [genSplit, Index_nil_of_ne_nil hsep]
  intro n
  induction n with
  | zero =>
    intro m s hn _
    have hs : s = [] := List.length_eq_zero.mp (Nat.le_zero.mp hn)
    subst hs
    rw [hnil, hnil]
  | succ n ih =>
    intro m s hn hm
    cases m with
    | zero =>
      have hs : s = [] := List.length_eq_zero.mp (Nat.le_zero.mp hm)
      subst hs
      rw [hnil, hnil]
    | succ m =>
      unfold genSplit
      by_cases hneg : Index s sep < 0
      · simp [hneg]
      · have hlen : 0 < sep.length := List.length_pos.mpr hsep
        have hd : (s.drop ((Index s sep).toNat + sep.length)).length ≤ s.length - 1 := by
          rw [List.length_drop]
          omega
        simp only [hneg, if_false]
        rw [ih m _ (by omega) (by omega)]

/-- With a non-empty separator that does not occur, `Split` returns the
string itself as its only part. -/
theorem Split_without_sep {s sep : GoString} (hsep : sep ≠ []) (h : ¬ sep <:+: s) :
    Split s sep = [s] := by
  have hneg : Index s sep < 0 := by
    have := (Index_nonneg_iff s sep).not.mpr h
    omega
  unfold Split
  rw [if_neg hsep]
  cases hl : s.length with
  | zero => rfl
  | succ n => simp [genSplit, hneg]

/-- With a non-empty separator that occurs, the first part returned by `Split`
is the part of the string in front of the first occurrence. -/
theorem Split_with_sep {s sep : GoString} (hsep : sep ≠ []) (h : sep <:+: s) :
    ∃ (i : Nat) (parts : List GoString), Index s sep = (i : Int) ∧
      Split s sep = s.take i :: parts := by
  obtain ⟨i, hi, _, _⟩ := Index_decomp h
  have hpos : 0 < s.length := by
    have h1 := h.length_le
    have h2 : 0 < sep.length := List.length_pos.mpr hsep
    omega
  obtain ⟨n, hn⟩ : ∃ n, s.length = n + 1 := ⟨s.length - 1, by omega⟩
  refine ⟨i, genSplit n (s.drop (i + sep.length)) sep, hi, ?_⟩
  unfold Split
  rw [if_neg hsep, hn]
  have hneg : ¬ ((i : Int) < 0) := by omega
  simp [genSplit, hi, hneg]

theorem Split_ne_nil {s sep : GoString} (hsep : sep ≠ []) : Split s sep ≠ [] := by
  by_cases h : sep <:+: s
  · obtain ⟨i, parts, _, hp⟩ := Split_with_sep hsep h
    rw [hp]
    exact List.cons_ne_nil _ _
  · rw [Split_without_sep hsep h]
    exact List.cons_ne_nil _ _

/-- With the empty separator, `Split` returns no part exactly for the empty
string. -/
theorem Split_nil_sep_eq_nil_iff (s : GoString) : Split s [] = [] ↔ s = [] := by
  unfold Split
  rw [if_pos rfl]
  cases s with
  | nil => simp [explode]
  | cons c t => simp [explode]

/-- The first UTF-8 sequence of a non-empty string has at least one byte and
is not longer than the string. -/
theorem runeWidth_bounds (c : Byte) (s : GoString) :
    1 ≤ runeWidth (c :: s) ∧ runeWidth (c :: s) ≤ (c :: s).length := by
  rcases s with _ | ⟨b1, _ | ⟨b2, _ | ⟨b3, rest⟩⟩⟩ <;>
    simp only [runeWidth] <;> split_ifs <;> simp_arith at *

/-- More cuts than bytes are never used by `explode`. -/
theorem explode_fuel :
    ∀ (n m : Nat) (s : GoString), s.length ≤ n → s.length ≤ m → explode n s = explode m s := by
  intro n
  induction n with
  | zero =>
    intro m s hn _
    have hs : s = [] := List.length_eq_zero.mp (Nat.le_zero.mp hn)
    subst hs
    cases m <;> rfl
  | succ n ih =>
    intro m s hn hm
    cases s with
    | nil => cases m <;> rfl
    | cons c t =>
      cases m with
      | zero => simp at hm
      | succ m =>
        have hw := runeWidth_bounds c t
        have hd : ((c :: t).drop (runeWidth (c :: t))).length ≤ t.length := by
          rw [List.length_drop, List.length_cons]
          omega
        simp only [List.length_cons] at hn hm
        simp only [explode]
        rw [ih m _ (by omega) (by omega)]

/-! ## Facts about the loops of `client/common.go` -/

/-- A loop that appends the elements passing a test computes a filter. -/
theorem foldl_append_if (p : GoString → Bool) (acc l : List GoString) :
    l.foldl (fun results object => if p object then results ++ [object] else results) acc
      = acc ++ l.filter p := by
  induction l generalizing acc with
  | nil => simp
  | cons a l ih =>
    rw [List.foldl_cons, ih]
    by_cases h : p a = true
    · simp [h]
    · simp [h]

/-- A loop that appends the image of every element computes a map. -/
theorem foldl_append_map (f : GoString → GoString) (acc l : List GoString) :
    l.foldl (fun results object => results ++ [f object]) acc = acc ++ l.map f := by
  induction l generalizing acc with
  | nil => simp
  | cons a l ih =>
    rw [List.foldl_cons, ih]
    simp

theorem filterPrefix_eq_filter (objects : List GoString) (pre : GoString) :
    filterPrefix objects pre = objects.filter (fun o => HasPrefix o pre) := by
  unfold filterPrefix
  rw [foldl_append_if (fun o => HasPrefix o pre)]
  simp

theorem removePrefix_eq_map (objects : List GoString) (pre : GoString) :
    removePrefix objects pre = objects.map (fun o => TrimPrefix o pre) := by
  unfold removePrefix
  rw [foldl_append_map (fun o => TrimPrefix o pre)]
  simp

theorem filterDelimited_eq_filter (objects : List GoString) (delim : GoString) :
    filterDelimited objects delim = objects.filter (fun o => !Contains o delim) := by
  unfold filterDelimited
  rw [foldl_append_if (fun o => !Contains o delim)]
  simp

theorem filterNotDelimited_eq_filter (objects : List GoString) (delim : GoString) :
    filterNotDelimited objects delim = objects.filter (fun o => Contains o delim) := by
  unfold filterNotDelimited
  rw [foldl_append_if (fun o => Contains o delim)]
  simp

/-- When no key makes `parts[0]` panic, `extractDir` appends one element per
key: the first part of the key followed by `"/"`. -/
theorem extractDirLoop_some (delim : GoString) (objects : List GoString) :
    ∀ acc : List GoString, (∀ o ∈ objects, Split o delim ≠ []) →
      extractDirLoop delim acc objects
        = some (acc ++ objects.map (fun o => (Split o delim).headD [] ++ slash)) := by
  induction objects with
  | nil =>
    intro acc _
    simp [extractDirLoop]
  | cons o rest ih =>
    intro acc h
    have ho : Split o delim ≠ [] := h o (List.mem_cons_self _ _)
    unfold extractDirLoop
    cases hs : Split o delim with
    | nil => exact absurd hs ho
    | cons part0 parts =>
      simp only []
      rw [ih _ (fun x hx => h x (List.mem_cons_of_mem _ hx))]
      simp [hs]

/-- A key for which `strings.Split` returns no part makes `extractDir`
panic. -/
theorem extractDirLoop_none (delim : GoString) (objects : List GoString) :
    ∀ acc : List GoString, (∃ o ∈ objects, Split o delim = []) →
      extractDirLoop delim acc objects = none := by
  induction objects with
  | nil =>
    intro acc h
    obtain ⟨o, ho, _⟩ := h
    exact absurd ho (List.not_mem_nil o)
  | cons o rest ih =>
    intro acc h
    unfold extractDirLoop
    cases hs : Split o delim with
    | nil => rfl
    | cons part0 parts =>
      simp only []
      apply ih
      obtain ⟨x, hx, hxs⟩ := h
      rcases List.mem_cons.mp hx with rfl | hx
      · rw [hs] at hxs
        exact absurd hxs (List.cons_ne_nil _ _)
      · exact ⟨x, hx, hxs⟩

/-! ## Facts about string comparison and `sort.Strings` -/

theorem strLess_irrefl (a : GoString) : strLess a a = false := by
  induction a with
  | nil => rfl
  | cons c t ih => simp [strLess, ih]

theorem strLess_trans {a b c : GoString} (hab : strLess a b = true) (hbc : strLess b c = true) :
    strLess a c = true := by
  induction a generalizing b c with
  | nil =>
    cases b with
    | nil => simp [strLess] at hab
    | cons y b =>
      cases c with
      | nil => simp [strLess] at hbc
      | cons z c => rfl
  | cons x a ih =>
    cases b with
    | nil => simp [strLess] at hab
    | cons y b =>
      cases c with
      | nil => simp [strLess] at hbc
      | cons z c =>
        simp only [strLess] at hab hbc ⊢
        by_cases hxy : x < y
        · by_cases hyz : y < z
          · simp [lt_trans hxy hyz]
          · by_cases hzy : z < y
            · simp [hyz, hzy] at hbc
            · have hyz2 : y = z := le_antisymm (not_lt.mp hzy) (not_lt.mp hyz)
              subst hyz2
              simp [hxy]
        · by_cases hyx : y < x
          · simp [hxy, hyx] at hab
          · have hxy2 : x = y := le_antisymm (not_lt.mp hyx) (not_lt.mp hxy)
            subst hxy2
            simp only [hxy, if_false] at hab
            by_cases hxz : x < z
            · simp [hxz]
            · by_cases hzx : z < x
              · simp [hxz, hzx] at hbc
              · simp only [hxz, hzx, if_false] at hbc ⊢
                exact ih hab hbc

/-- Two strings neither of which is less than the other are the same
string. -/
theorem strLess_connected {a b : GoString} (hab : strLess a b = false)
    (hba : strLess b a = false) : a = b := by
  induction a generalizing b with
  | nil =>
    cases b with
    | nil => rfl
    | cons y b => simp [strLess] at hab
  | cons x a ih =>
    cases b with
    | nil => simp [strLess] at hba
    | cons y b =>
      simp only [strLess] at hab hba
      by_cases hxy : x < y
      · simp [hxy] at hab
      · by_cases hyx : y < x
        · simp [hyx] at hba
        · have hxy2 : x = y := le_antisymm (not_lt.mp hyx) (not_lt.mp hxy)
          subst hxy2
          simp only [hxy, if_false] at hab hba
          rw [ih hab hba]

theorem strLess_asymm {a b : GoString} (hab : strLess a b = true) : strLess b a = false := by
  cases hba : strLess b a with
  | false => rfl
  | true =>
    have := strLess_trans hab hba
    rw [strLess_irrefl] at this
    exact absurd this (by decide)

/-- Go string comparison is the lexicographic order of the byte lists. -/
theorem strLess_iff_lex (a b : GoString) :
    strLess a b = true ↔ List.Lex (fun x y : Byte => x < y) a b := by
  induction a generalizing b with
  | nil =>
    cases b with
    | nil => simp [strLess]
    | cons y b => simp [strLess, List.Lex.nil]
  | cons x a ih =>
    cases b with
    | nil => simp [strLess]
    | cons y b =>
      simp only [strLess]
      by_cases hxy : x < y
      · simp [hxy, List.Lex.rel hxy]
      · by_cases hyx : y < x
        · simp only [hxy, hyx, if_false, if_true]
          constructor
          · intro h
            exact absurd h (by decide)
          · intro h
            cases h with
            | cons h => exact absurd hyx (lt_irrefl _)
            | rel h => exact absurd h hxy
        · have hxy2 : x = y := le_antisymm (not_lt.mp hyx) (not_lt.mp hxy)
          subst hxy2
          simp only [hxy, if_false]
          rw [ih]
          constructor
          · intro h
            exact List.Lex.cons h
          · intro h
            cases h with
            | cons h => exact h
            | rel h => exact absurd h hxy

theorem perm_insertSorted (a : GoString) (l : List GoString) :
    List.Perm (insertSorted a l) (a :: l) := by
  induction l with
  | nil => exact List.Perm.refl _
  | cons b l ih =>
    unfold insertSorted
    by_cases h : strLess b a = true
    · rw [if_pos h]
      exact (List.Perm.cons b ih).trans (List.Perm.swap a b l)
    · rw [if_neg h]

theorem Strings_perm (l : List GoString) : List.Perm (Strings l) l := by
  induction l with
  | nil => exact List.Perm.refl _
  | cons a l ih =>
    unfold Strings
    exact (perm_insertSorted a _).trans (List.Perm.cons a ih)

theorem mem_Strings {l : List GoString} {x : GoString} : x ∈ Strings l ↔ x ∈ l :=
  (Strings_perm l).mem_iff

theorem Ascending_insertSorted (a : GoString) (l : List GoString) (h : Ascending l) :
    Ascending (insertSorted a l) := by
  unfold Ascending at h ⊢
  induction l with
  | nil => simp [insertSorted]
  | cons b l ih =>
    unfold insertSorted
    rw [List.pairwise_cons] at h
    by_cases hba : strLess b a = true
    · rw [if_pos hba, List.pairwise_cons]
      refine ⟨fun x hx => ?_, ih h.2⟩
      rcases List.mem_cons.mp ((perm_insertSorted a l).mem_iff.mp hx) with rfl | hx
      · exact strLess_asymm hba
      · exact h.1 x hx
    · rw [if_neg hba, List.pairwise_cons, List.pairwise_cons]
      rw [Bool.not_eq_true] at hba
      refine ⟨fun x hx => ?_, h⟩
      rcases List.mem_cons.mp hx with rfl | hx
      · exact hba
      · cases hxa : strLess x a with
        | false => rfl
        | true =>
          have hxb := h.1 x hx
          cases hab : strLess a x with
          | true =>
            rw [strLess_asymm hab] at hxa
            exact absurd hxa (by decide)
          | false =>
            cases hbx : strLess b x with
            | true =>
              rw [strLess_trans hbx hxa] at hba
              exact absurd hba (by decide)
            | false =>
              have hbx2 : x = b := strLess_connected hxb hbx
              rw [hbx2, hba] at hxa
              exact absurd hxa (by decide)

/-- The slice returned by `sort.Strings` is in increasing order. -/
theorem Strings_ascending (l : List GoString) : Ascending (Strings l) := by
  induction l with
  | nil => exact List.Pairwise.nil
  | cons a l ih =>
    unfold Strings
    exact Ascending_insertSorted a _ ih

/-- An increasing slice without repeated elements is strictly increasing. -/
theorem StrictAscending_of_nodup {l : List GoString} (h : Ascending l) (hn : l.Nodup) :
    StrictAscending l := by
  unfold Ascending at h
  unfold StrictAscending
  unfold List.Nodup at hn
  refine (h.and hn).imp ?_
  intro a b hab
  cases hlt : strLess a b with
  | true => rfl
  | false => exact absurd (strLess_connected hlt hab.1) hab.2

theorem StrictAscending.nodup {l : List GoString} (h : StrictAscending l) : l.Nodup := by
  unfold StrictAscending at h
  unfold List.Nodup
  refine h.imp ?_
  intro a b hab heq
  rw [heq, strLess_irrefl] at hab
  exact absurd hab (by decide)

theorem StrictAscending.ascending {l : List GoString} (h : StrictAscending l) : Ascending l := by
  unfold StrictAscending at h
  unfold Ascending
  exact h.imp (fun hab => strLess_asymm hab)

/-- Two increasing slices holding the same elements with the same
multiplicities are the same slice. -/
theorem Ascending_unique {l1 l2 : List GoString} (hp : List.Perm l1 l2)
    (h1 : Ascending l1) (h2 : Ascending l2) : l1 = l2 := by
  induction l1 generalizing l2 with
  | nil => exact (List.Perm.nil_eq hp)
  | cons a l1 ih =>
    cases l2 with
    | nil => exact absurd hp.symm (List.Perm.nil_eq · |> fun h => List.cons_ne_nil _ _ h.symm)
    | cons b l2 =>
      unfold Ascending at h1 h2
      rw [List.pairwise_cons] at h1 h2
      have hab : a = b := by
        have ha : a ∈ b :: l2 := hp.mem_iff.mp (List.mem_cons_self _ _)
        have hb : b ∈ a :: l1 := hp.mem_iff.mpr (List.mem_cons_self _ _)
        rcases List.mem_cons.mp ha with h | ha
        · exact h
        · rcases List.mem_cons.mp hb with h | hb
          · exact h.symm
          · exact strLess_connected (h2.1 a ha) (h1.1 b hb)
      subst hab
      rw [ih (List.Perm.cons_inv hp) h1.2 h2.2]

/-- Whatever algorithm `sort.Strings` runs, an increasing rearrangement of
the input is the slice computed here. -/
theorem Strings_unique {l sorted : List GoString} (hp : List.Perm sorted l)
    (hs : Ascending sorted) : sorted = Strings l :=
  Ascending_unique (hp.trans (Strings_perm l).symm) hs (Strings_ascending l)

/-- A strictly increasing slice is determined by the set of its elements. -/
theorem StrictAscending_ext {l1 l2 : List GoString} (h1 : StrictAscending l1)
    (h2 : StrictAscending l2) (hmem : ∀ x, x ∈ l1 ↔ x ∈ l2) : l1 = l2 :=
  Ascending_unique ((List.perm_ext_iff_of_nodup h1.nodup h2.nodup).mpr hmem)
    h1.ascending h2.ascending

/-! ## Facts about the built-in map -/

theorem mem_mapKeys_mapAssign (m : GoMap) (k v x : GoString) :
    x ∈ mapKeys (mapAssign m k v) ↔ x = k ∨ x ∈ mapKeys m := by
  induction m with
  | nil => simp [mapAssign, mapKeys]
  | cons kv m ih =>
    obtain ⟨k0, v0⟩ := kv
    unfold mapAssign
    by_cases h : k0 = k
    · rw [if_pos h]
      subst h
      simp [mapKeys]
    · rw [if_neg h]
      unfold mapKeys at ih ⊢
      rw [List.map_cons, List.mem_cons, ih, List.map_cons, List.mem_cons]
      tauto

/-- Assigning to a map keeps its keys pairwise distinct. -/
theorem nodup_mapKeys_mapAssign (m : GoMap) (k v : GoString) (h : (mapKeys m).Nodup) :
    (mapKeys (mapAssign m k v)).Nodup := by
  induction m with
  | nil => simp [mapAssign, mapKeys]
  | cons kv m ih =>
    obtain ⟨k0, v0⟩ := kv
    unfold mapAssign
    by_cases hk : k0 = k
    · rw [if_pos hk]
      simpa [mapKeys] using h
    · rw [if_neg hk]
      have h2 : k0 ∉ mapKeys m ∧ (mapKeys m).Nodup := by simpa [mapKeys] using h
      have h3 := ih h2.2
      have h4 : k0 ∉ mapKeys (mapAssign m k v) := by
        rw [mem_mapKeys_mapAssign]
        rintro (h5 | h5)
        · exact hk h5
        · exact h2.1 h5
      show (mapKeys ((k0, v0) :: mapAssign m k v)).Nodup
      unfold mapKeys at h3 h4 ⊢
      rw [List.map_cons, List.nodup_cons]
      exact ⟨h4, h3⟩

/-- The map built by the first loop of `uniqueObjects`, started from `m`,
holds the keys of `m` and the elements of `objects`, each once. -/
theorem mapKeys_foldl (objects : List GoString) :
    ∀ m : GoMap, (mapKeys m).Nodup →
      (mapKeys (objects.foldl (fun m v => mapAssign m v v) m)).Nodup ∧
      ∀ x, x ∈ mapKeys (objects.foldl (fun m v => mapAssign m v v) m)
        ↔ x ∈ mapKeys m ∨ x ∈ objects := by
  induction objects with
  | nil =>
    intro m hm
    simpa using hm
  | cons a l ih =>
    intro m hm
    rw [List.foldl_cons]
    obtain ⟨h1, h2⟩ := ih (mapAssign m a a) (nodup_mapKeys_mapAssign m a a hm)
    refine ⟨h1, fun x => ?_⟩
    rw [h2, mem_mapKeys_mapAssign, List.mem_cons]
    tauto

/-- What `uniqueObjects` returns: strictly increasing and holding exactly
the strings of the input. -/
theorem uniqueObjects_spec (order : RangeOrder) (h : order.Admissible)
    (objects : List GoString) :
    StrictAscending (uniqueObjects order objects) ∧
      ∀ x, x ∈ uniqueObjects order objects ↔ x ∈ objects := by
  obtain ⟨hn, hm⟩ := mapKeys_foldl objects [] (by simp [mapKeys])
  have hres : ∀ keys : List GoString,
      (order keys).foldl (fun results k => results ++ [k]) [] = order keys := by
    intro keys
    have := foldl_append_map id [] (order keys)
    simpa using this
  unfold uniqueObjects
  simp only [hres]
  have hperm := h (mapKeys (objects.foldl (fun m v => mapAssign m v v) []))
  constructor
  · apply StrictAscending_of_nodup (Strings_ascending _)
    exact ((Strings_perm _).trans hperm).nodup_iff.mpr hn
  · intro x
    rw [mem_Strings, hperm.mem_iff, hm]
    simp [mapKeys]

/-! ## Facts about `extractDir` -/

/-- With a non-empty delimiter `extractDir` never panics; its element for a
key is the part of the key in front of the first delimiter (the whole key
when it has none), followed by `"/"`. -/
theorem extractDir_of_ne_nil (objects : List GoString) {delim : GoString} (hd : delim ≠ []) :
    extractDir objects delim
      = some (objects.map (fun o => (Split o delim).headD [] ++ slash)) := by
  unfold extractDir
  rw [extractDirLoop_some delim objects [] (fun o _ => Split_ne_nil hd)]
  simp

/-- For a one-byte separator `c`, `Index` of a string `s ++ c ++ rest` where
`c` is not in `s` is the length of `s`. -/
theorem Index_single (c : Byte) (s rest : GoString) (hc : c ∉ s) :
    Index (s ++ [c] ++ rest) [c] = (s.length : Int) := by
  induction s with
  | nil => simp [Index, HasPrefix]
  | cons x s ih =>
    have hx : ¬ x = c := fun h => hc (h ▸ List.mem_cons_self _ _)
    have hs : c ∉ s := fun h => hc (List.mem_cons_of_mem _ h)
    have ih2 := ih hs
    have hneg : ¬ ((s.length : Int) < 0) := by omega
    have ih3 : Index (s ++ c :: rest) [c] = (s.length : Int) := by simpa using ih2
    simp only [List.cons_append]
    unfold Index
    simp [HasPrefix, hx, ih3, hneg]

/-- For a one-byte separator `c`, the first part `Split` returns for
`s ++ c ++ rest`, where `c` is not in `s`, is `s`. -/
theorem Split_single_head (c : Byte) (s rest : GoString) (hc : c ∉ s) :
    (Split (s ++ [c] ++ rest) [c]).headD [] = s := by
  have hinf : [c] <:+: s ++ [c] ++ rest := ⟨s, rest, rfl⟩
  obtain ⟨i, parts, hi, hp⟩ := Split_with_sep (List.cons_ne_nil c []) hinf
  rw [Index_single c s rest hc] at hi
  have hi2 : i = s.length := by omega
  rw [hp, hi2]
  simp

/-- A string containing the byte `c` is cut in a unique way into a part
without `c`, the byte `c`, and a rest. -/
theorem first_segment_exists {c : Byte} {key : GoString} (h : [c] <:+: key) :
    ∃ s rest, key = s ++ [c] ++ rest ∧ c ∉ s := by
  have hmem : c ∈ key := by
    obtain ⟨a, b, rfl⟩ := h
    simp
  obtain ⟨as, bs, heq, hnot⟩ := List.eq_append_cons_of_mem hmem
  exact ⟨as, bs, by simpa using heq, hnot⟩

/-- How often a string occurs among the elements of a list that pass a
test: as often as in the list when it passes, never otherwise. -/
theorem countP_eq_filter (keys : List GoString) (q : GoString → Prop) [DecidablePred q]
    (k : GoString) :
    List.countP (fun x => decide (x = k)) (keys.filter (fun x => decide (q x)))
      = if q k then List.countP (fun x => decide (x = k)) keys else 0 := by
  rw [List.countP_filter]
  by_cases h : q k
  · rw [if_pos h]
    apply List.countP_congr
    intro x _
    simp only [Bool.and_eq_true, decide_eq_true_iff]
    constructor
    · exact fun hx => hx.1
    · intro hx
      exact ⟨hx, hx ▸ h⟩
  · rw [if_neg h, List.countP_eq_zero]
    intro x _ hx
    simp only [Bool.and_eq_true, decide_eq_true_iff] at hx
    exact h (hx.1 ▸ hx.2)

/-! ## The claims -/

/-- C1: for every list of keys, `uniqueObjects keys` is strictly ascending in
byte-wise lexicographic order, hence has no duplicates, and a string is in the
output if and only if it is in the input; this holds whatever order the range
loop visits the map in. -/
theorem C1_uniqueObjects_strictly_ascending_same_elements
    (order : RangeOrder) (horder : order.Admissible) (keys : List GoString) :
    List.Pairwise (fun a b => List.Lex (fun x y : Byte => x < y) a b) (uniqueObjects order keys) ∧
    List.Pairwise (fun a b => strLess a b = true) (uniqueObjects order keys) ∧
    (uniqueObjects order keys).Nodup ∧
    ∀ s, s ∈ uniqueObjects order keys ↔ s ∈ keys := by
  obtain ⟨hs, hm⟩ := uniqueObjects_spec order horder keys
  refine ⟨?_, hs, hs.nodup, hm⟩
  exact List.Pairwise.imp (fun hab => (strLess_iff_lex _ _).mp hab) hs

/-- Witness of C1: keys `["b", "a", "b"]`, the map visited in reverse order. -/
theorem C1_witness :
    RangeOrder.Admissible List.reverse ∧
    List.Pairwise (fun a b => List.Lex (fun x y : Byte => x < y) a b)
      (uniqueObjects List.reverse [ascii "b", ascii "a", ascii "b"]) ∧
    List.Pairwise (fun a b => strLess a b = true)
      (uniqueObjects List.reverse [ascii "b", ascii "a", ascii "b"]) ∧
    (uniqueObjects List.reverse [ascii "b", ascii "a", ascii "b"]).Nodup ∧
    ∀ s, s ∈ uniqueObjects List.reverse [ascii "b", ascii "a", ascii "b"]
      ↔ s ∈ [ascii "b", ascii "a", ascii "b"] :=
  ⟨fun l => List.reverse_perm l,
   C1_uniqueObjects_strictly_ascending_same_elements List.reverse
     (fun l => List.reverse_perm l) [ascii "b", ascii "a", ascii "b"]⟩

/-- C2: at keys `["a-b"]` and delimiter `"-"` the key contains the delimiter
and the part in front of its first occurrence is `"a"`, yet `extractDir`
returns `["a/"]`: the element ends in `"/"`, not in the delimiter `"-"`. -/
theorem C2_extractDir_appends_slash_not_delim :
    Contains (ascii "a-b") (ascii "-") = true ∧
    (ascii "a-b").take (Index (ascii "a-b") (ascii "-")).toNat = ascii "a" ∧
    extractDir [ascii "a-b"] (ascii "-") = some [ascii "a/"] ∧
    extractDir [ascii "a-b"] (ascii "-") ≠ some [ascii "a" ++ ascii "-"] := by
  decide

/-- C3: with delimiter `"/"`, `dirs = uniqueObjects (extractDir
(filterNotDelimited keys "/") "/")` is computed without panic; a string `d` is
in `dirs` if and only if `d = s ++ "/"` where `s` is the part in front of the
first `"/"` of some key of `keys` that contains `"/"`; `dirs` is strictly
ascending and free of duplicates; and keys `["a/b", "a/c", "d"]` give
`dirs = ["a/"]` and `filterDelimited keys "/" = ["d"]`. -/
theorem C3_common_prefixes_one_per_first_segment
    (order : RangeOrder) (horder : order.Admissible) (keys : List GoString) :
    (∃ dirs, (extractDir (filterNotDelimited keys slash) slash).map (uniqueObjects order)
        = some dirs ∧
      (∀ d, d ∈ dirs ↔
        ∃ key ∈ keys, slash <:+: key ∧
          ∃ s rest, key = s ++ slash ++ rest ∧ (47 : Byte) ∉ s ∧ d = s ++ slash) ∧
      StrictAscending dirs ∧ dirs.Nodup) ∧
    (extractDir (filterNotDelimited [ascii "a/b", ascii "a/c", ascii "d"] slash) slash).map
        (uniqueObjects order) = some [ascii "a/"] ∧
    filterDelimited [ascii "a/b", ascii "a/c", ascii "d"] slash = [ascii "d"] := by
  have hne : slash ≠ [] := List.cons_ne_nil _ _
  have key : ∀ ks : List GoString,
      ∃ dirs, (extractDir (filterNotDelimited ks slash) slash).map (uniqueObjects order)
          = some dirs ∧
        (∀ d, d ∈ dirs ↔
          ∃ key ∈ ks, slash <:+: key ∧
            ∃ s rest, key = s ++ slash ++ rest ∧ (47 : Byte) ∉ s ∧ d = s ++ slash) ∧
        StrictAscending dirs ∧ dirs.Nodup := by
    intro ks
    obtain ⟨hs, hm⟩ := uniqueObjects_spec order horder
      ((filterNotDelimited ks slash).map (fun o => (Split o slash).headD [] ++ slash))
    refine ⟨_, by rw [extractDir_of_ne_nil _ hne]; rfl, fun d => ?_, hs, hs.nodup⟩
    rw [hm, filterNotDelimited_eq_filter, List.mem_map]
    constructor
    · rintro ⟨o, ho, rfl⟩
      rw [List.mem_filter] at ho
      have hinf : slash <:+: o := (Contains_iff o slash).mp ho.2
      obtain ⟨s, rest, heq, hnot⟩ := first_segment_exists hinf
      refine ⟨o, ho.1, hinf, s, rest, heq, hnot, ?_⟩
      have := Split_single_head 47 s rest hnot
      rw [heq]
      unfold slash
      rw [this]
    · rintro ⟨o, ho, hinf, s, rest, heq, hnot, rfl⟩
      refine ⟨o, List.mem_filter.mpr ⟨ho, (Contains_iff o slash).mpr hinf⟩, ?_⟩
      have := Split_single_head 47 s rest hnot
      rw [heq]
      unfold slash
      rw [this]
  refine ⟨key keys, ?_, by decide⟩
  obtain ⟨dirs, hd, hmem, hs, _⟩ := key [ascii "a/b", ascii "a/c", ascii "d"]
  rw [hd]
  congr 1
  apply StrictAscending_ext hs (by decide)
  intro x
  rw [hmem]
  constructor
  · rintro ⟨o, ho, hinf, s, rest, heq, hnot, rfl⟩
    have hsa : (Split o slash).headD [] = s := by
      rw [heq]
      exact Split_single_head 47 s rest hnot
    have ho2 : o = ascii "a/b" ∨ o = ascii "a/c" ∨ o = ascii "d" := by simpa using ho
    rcases ho2 with rfl | rfl | rfl
    · have h2 : (Split (ascii "a/b") slash).headD [] = ascii "a" := by decide
      rw [← hsa, h2]
      decide
    · have h2 : (Split (ascii "a/c") slash).headD [] = ascii "a" := by decide
      rw [← hsa, h2]
      decide
    · exact absurd hinf (by decide)
  · intro hx
    have hx2 : x = ascii "a/" := by simpa using hx
    subst hx2
    exact ⟨ascii "a/b", by simp, by decide, ascii "a", ascii "b", by decide, by decide, by decide⟩

/-- Witness of C3: keys `["x/y/z", "x/w", "q"]`, the map visited in reverse
order. -/
theorem C3_witness :
    RangeOrder.Admissible List.reverse ∧
    ((∃ dirs, (extractDir (filterNotDelimited [ascii "x/y/z", ascii "x/w", ascii "q"] slash)
          slash).map (uniqueObjects List.reverse) = some dirs ∧
      (∀ d, d ∈ dirs ↔
        ∃ key ∈ [ascii "x/y/z", ascii "x/w", ascii "q"], slash <:+: key ∧
          ∃ s rest, key = s ++ slash ++ rest ∧ (47 : Byte) ∉ s ∧ d = s ++ slash) ∧
      StrictAscending dirs ∧ dirs.Nodup) ∧
    (extractDir (filterNotDelimited [ascii "a/b", ascii "a/c", ascii "d"] slash) slash).map
        (uniqueObjects List.reverse) = some [ascii "a/"] ∧
    filterDelimited [ascii "a/b", ascii "a/c", ascii "d"] slash = [ascii "d"]) :=
  ⟨fun l => List.reverse_perm l,
   C3_common_prefixes_one_per_first_segment List.reverse (fun l => List.reverse_perm l)
     [ascii "x/y/z", ascii "x/w", ascii "q"]⟩

/-- C4: for every list of keys and every prefix, `filterPrefix keys pre` is
exactly the sub-list of the keys that start with `pre`, in their original
relative order and with their original multiplicity: no key that lacks the
prefix is kept and no key that has it is dropped. -/
theorem C4_filterPrefix_keeps_exactly_prefixed (keys : List GoString) (pre : GoString) :
    filterPrefix keys pre = keys.filter (fun k => decide (pre <+: k)) ∧
    List.Sublist (filterPrefix keys pre) keys ∧
    (∀ k, k ∈ filterPrefix keys pre ↔ k ∈ keys ∧ pre <+: k) ∧
    (∀ k, List.countP (fun x => decide (x = k)) (filterPrefix keys pre)
      = if pre <+: k then List.countP (fun x => decide (x = k)) keys else 0) := by
  have h1 : filterPrefix keys pre = keys.filter (fun k => decide (pre <+: k)) := by
    rw [filterPrefix_eq_filter]
    apply List.filter_congr
    intro k _
    rw [Bool.eq_iff_iff, HasPrefix_iff, decide_eq_true_iff]
  refine ⟨h1, ?_, fun k => ?_, fun k => ?_⟩
  · rw [h1]
    exact List.filter_sublist _
  · rw [h1, List.mem_filter, decide_eq_true_iff]
  · rw [h1]
    exact countP_eq_filter keys (fun x => pre <+: x) k

/-- C5: for every list of keys and every prefix `pre`, prepending `pre` to
each element of `removePrefix (filterPrefix keys pre) pre` gives back
`filterPrefix keys pre` element for element; keys `["a/b", "a/c", "d"]` with
prefix `"a/"` give suffixes `["b", "c"]`, which re-prefix to
`["a/b", "a/c"]`, and no suffix contains `"/"`. -/
theorem C5_removePrefix_filterPrefix_reprefix (keys : List GoString) (pre : GoString) :
    (removePrefix (filterPrefix keys pre) pre).map (fun suffix => pre ++ suffix)
      = filterPrefix keys pre ∧
    removePrefix (filterPrefix [ascii "a/b", ascii "a/c", ascii "d"] (ascii "a/")) (ascii "a/")
      = [ascii "b", ascii "c"] ∧
    [ascii "b", ascii "c"].map (fun suffix => ascii "a/" ++ suffix) = [ascii "a/b", ascii "a/c"] ∧
    filterNotDelimited [ascii "b", ascii "c"] slash = [] ∧
    filterDelimited [ascii "b", ascii "c"] slash = [ascii "b", ascii "c"] := by
  refine ⟨?_, by decide, by decide, by decide, by decide⟩
  rw [removePrefix_eq_map, List.map_map]
  conv_rhs => rw [← List.map_id (filterPrefix keys pre)]
  apply List.map_congr_left
  intro k hk
  rw [filterPrefix_eq_filter, List.mem_filter] at hk
  exact TrimPrefix_restore ((HasPrefix_iff k pre).mp hk.2)

/-- C6: for every list of keys and every delimiter, `filterDelimited keys
delim` is exactly the sub-list of the keys that do not contain `delim` as a
substring, in their original relative order. -/
theorem C6_filterDelimited_keeps_exactly_undelimited (keys : List GoString) (delim : GoString) :
    filterDelimited keys delim = keys.filter (fun k => !decide (delim <:+: k)) ∧
    List.Sublist (filterDelimited keys delim) keys ∧
    (∀ k, k ∈ filterDelimited keys delim ↔ k ∈ keys ∧ ¬ delim <:+: k) ∧
    (∀ k, List.countP (fun x => decide (x = k)) (filterDelimited keys delim)
      = if ¬ delim <:+: k then List.countP (fun x => decide (x = k)) keys else 0) := by
  have h1 : filterDelimited keys delim = keys.filter (fun k => !decide (delim <:+: k)) := by
    rw [filterDelimited_eq_filter]
    apply List.filter_congr
    intro k _
    rw [Bool.eq_iff_iff, Bool.not_eq_true', Bool.not_eq_true', decide_eq_false_iff_not,
      ← Bool.not_eq_true, Contains_iff]
  refine ⟨h1, ?_, fun k => ?_, fun k => ?_⟩
  · rw [h1]
    exact List.filter_sublist _
  · rw [h1, List.mem_filter, Bool.not_eq_true', decide_eq_false_iff_not]
  · rw [h1]
    have h2 := countP_eq_filter keys (fun x => ¬ delim <:+: x) k
    simpa using h2

/-- C7: for every list of keys and every delimiter, `filterNotDelimited keys
delim` is exactly the sub-list of the keys that contain `delim`, and with
`filterDelimited keys delim` it partitions the input: the two keep
complementary positions, their lengths add up to the length of `keys`,
together they hold every key as often as `keys` does, and no key is in
both. -/
theorem C7_filterNotDelimited_complements_filterDelimited
    (keys : List GoString) (delim : GoString) :
    filterNotDelimited keys delim = keys.filter (fun k => decide (delim <:+: k)) ∧
    filterDelimited keys delim = keys.filter (fun k => !decide (delim <:+: k)) ∧
    (filterDelimited keys delim).length + (filterNotDelimited keys delim).length
      = keys.length ∧
    List.Perm (filterDelimited keys delim ++ filterNotDelimited keys delim) keys ∧
    (∀ k, List.countP (fun x => decide (x = k)) (filterDelimited keys delim)
        + List.countP (fun x => decide (x = k)) (filterNotDelimited keys delim)
      = List.countP (fun x => decide (x = k)) keys) ∧
    (∀ k, ¬ (k ∈ filterDelimited keys delim ∧ k ∈ filterNotDelimited keys delim)) := by
  have h1 : filterNotDelimited keys delim = keys.filter (fun k => decide (delim <:+: k)) := by
    rw [filterNotDelimited_eq_filter]
    apply List.filter_congr
    intro k _
    rw [Bool.eq_iff_iff, Contains_iff, decide_eq_true_iff]
  have h2 : filterDelimited keys delim = keys.filter (fun k => !decide (delim <:+: k)) := by
    rw [filterDelimited_eq_filter]
    apply List.filter_congr
    intro k _
    rw [Bool.eq_iff_iff, Bool.not_eq_true', Bool.not_eq_true', decide_eq_false_iff_not,
      ← Bool.not_eq_true, Contains_iff]
  have hperm : List.Perm (filterDelimited keys delim ++ filterNotDelimited keys delim) keys := by
    rw [h1, h2]
    exact List.perm_append_comm.trans
      (List.filter_append_perm (fun k => decide (delim <:+: k)) keys)
  refine ⟨h1, h2, ?_, hperm, fun k => ?_, fun k hk => ?_⟩
  · rw [← List.length_append]
    exact hperm.length_eq
  · rw [← List.countP_append]
    exact hperm.countP_eq _
  · rw [h1, h2, List.mem_filter, List.mem_filter, Bool.not_eq_true', decide_eq_false_iff_not,
      decide_eq_true_iff] at hk
    exact hk.1.2 hk.2.2

/-- C8: for every list of keys and every prefix, `removePrefix keys pre` has
the length of `keys`; its `i`-th element is the `i`-th key with one leading
occurrence of `pre` removed when the key starts with `pre`, and the `i`-th key
unchanged otherwise; `"aab"` with prefix `"a"` gives `"ab"`. -/
theorem C8_removePrefix_strips_one_leading_occurrence (keys : List GoString) (pre : GoString) :
    (removePrefix keys pre).length = keys.length ∧
    removePrefix keys pre = keys.map (fun k => if pre <+: k then k.drop pre.length else k) ∧
    (∀ (i : Nat) (k : GoString), keys[i]? = some k →
      ∃ r, (removePrefix keys pre)[i]? = some r ∧
        ((pre <+: k ∧ k = pre ++ r) ∨ (¬ pre <+: k ∧ r = k))) ∧
    removePrefix [ascii "aab"] (ascii "a") = [ascii "ab"] := by
  refine ⟨?_, ?_, fun i k hk => ?_, by decide⟩
  · rw [removePrefix_eq_map, List.length_map]
  · rw [removePrefix_eq_map]
    apply List.map_congr_left
    intro k _
    unfold TrimPrefix
    by_cases h : pre <+: k
    · rw [if_pos ((HasPrefix_iff k pre).mpr h), if_pos h]
    · rw [if_neg (fun hp => h ((HasPrefix_iff k pre).mp hp)), if_neg h]
  · refine ⟨TrimPrefix k pre, ?_, ?_⟩
    · rw [removePrefix_eq_map, List.getElem?_map, hk]
      rfl
    · by_cases h : pre <+: k
      · exact Or.inl ⟨h, (TrimPrefix_restore h).symm⟩
      · exact Or.inr ⟨h, TrimPrefix_unchanged h⟩

/-- C9: `uniqueObjects` is idempotent: for every list `x` of strings,
`uniqueObjects (uniqueObjects x) = uniqueObjects x`, whatever orders the two
calls visit their maps in. -/
theorem C9_uniqueObjects_idempotent (order1 order2 : RangeOrder)
    (h1 : order1.Admissible) (h2 : order2.Admissible) (x : List GoString) :
    uniqueObjects order2 (uniqueObjects order1 x) = uniqueObjects order1 x := by
  obtain ⟨hs1, hm1⟩ := uniqueObjects_spec order1 h1 x
  obtain ⟨hs2, hm2⟩ := uniqueObjects_spec order2 h2 (uniqueObjects order1 x)
  exact StrictAscending_ext hs2 hs1 hm2

/-- Witness of C9: `x = ["b", "a", "b"]`, the first map visited in reverse
order and the second in stored order. -/
theorem C9_witness :
    RangeOrder.Admissible List.reverse ∧ RangeOrder.Admissible id ∧
    uniqueObjects id (uniqueObjects List.reverse [ascii "b", ascii "a", ascii "b"])
      = uniqueObjects List.reverse [ascii "b", ascii "a", ascii "b"] :=
  ⟨fun l => List.reverse_perm l, fun l => List.Perm.refl l,
   C9_uniqueObjects_idempotent List.reverse id (fun l => List.reverse_perm l)
     (fun l => List.Perm.refl l) [ascii "b", ascii "a", ascii "b"]⟩

/-- C10: `uniqueObjects` is order-insensitive on its input: for every two
lists `x` and `y` that contain the same set of strings,
`uniqueObjects x = uniqueObjects y`, whatever orders the two calls visit their
maps in; so the result does not depend on map iteration order. -/
theorem C10_uniqueObjects_depends_on_element_set_only (order1 order2 : RangeOrder)
    (h1 : order1.Admissible) (h2 : order2.Admissible) (x y : List GoString)
    (hxy : ∀ s, s ∈ x ↔ s ∈ y) :
    uniqueObjects order1 x = uniqueObjects order2 y := by
  obtain ⟨hs1, hm1⟩ := uniqueObjects_spec order1 h1 x
  obtain ⟨hs2, hm2⟩ := uniqueObjects_spec order2 h2 y
  refine StrictAscending_ext hs1 hs2 (fun s => ?_)
  rw [hm1, hm2, hxy]

/-- Witness of C10: `x = ["b", "a", "b"]` and `y = ["a", "b", "a"]`, one map
visited in reverse order and the other in stored order. -/
theorem C10_witness :
    RangeOrder.Admissible List.reverse ∧ RangeOrder.Admissible id ∧
    (∀ s, s ∈ [ascii "b", ascii "a", ascii "b"] ↔ s ∈ [ascii "a", ascii "b", ascii "a"]) ∧
    uniqueObjects List.reverse [ascii "b", ascii "a", ascii "b"]
      = uniqueObjects id [ascii "a", ascii "b", ascii "a"] :=
  ⟨fun l => List.reverse_perm l, fun l => List.Perm.refl l,
   fun s => by simp only [List.mem_cons, List.mem_singleton, List.not_mem_nil]; tauto,
   C10_uniqueObjects_depends_on_element_set_only List.reverse id (fun l => List.reverse_perm l)
     (fun l => List.Perm.refl l) [ascii "b", ascii "a", ascii "b"]
     [ascii "a", ascii "b", ascii "a"]
     (fun s => by simp only [List.mem_cons, List.mem_singleton, List.not_mem_nil]; tauto)⟩

/-! ## Facts about order, first segments and stripped prefixes -/

/-- Comparing two strings that start with the same bytes compares what
follows them. -/
theorem strLess_append_left (p a b : GoString) : strLess (p ++ a) (p ++ b) = strLess a b := by
  induction p with
  | nil => rfl
  | cons c p ih => simp [strLess, ih]

/-- When the first segments of two strings, each closed by the byte `c`,
compare as less, so do the two strings. -/
theorem strLess_first_segment (c : Byte) (r r2 : GoString) :
    ∀ x y : GoString, c ∉ x → c ∉ y → strLess (x ++ [c]) (y ++ [c]) = true →
      strLess (x ++ [c] ++ r) (y ++ [c] ++ r2) = true := by
  intro x
  induction x with
  | nil =>
    intro y _ hy h
    cases y with
    | nil => simp [strLess] at h
    | cons d y =>
      have hd : ¬ c = d := fun e => hy (e ▸ List.mem_cons_self _ _)
      simp only [List.nil_append, List.cons_append, List.singleton_append, strLess] at h ⊢
      by_cases hcd : c < d
      · simp [hcd]
      · by_cases hdc : d < c
        · simp [hcd, hdc] at h
        · exact absurd (le_antisymm (not_lt.mp hdc) (not_lt.mp hcd)) hd
  | cons e x ih =>
    intro y hx hy h
    have he : ¬ e = c := fun h2 => hx (h2 ▸ List.mem_cons_self _ _)
    have hx2 : c ∉ x := fun h2 => hx (List.mem_cons_of_mem _ h2)
    cases y with
    | nil =>
      simp only [List.nil_append, List.cons_append, List.singleton_append, strLess] at h ⊢
      by_cases hec : e < c
      · simp [hec]
      · by_cases hce : c < e
        · simp [hec, hce] at h
        · exact absurd (le_antisymm (not_lt.mp hce) (not_lt.mp hec)) he
    | cons d y =>
      have hy2 : c ∉ y := fun h2 => hy (List.mem_cons_of_mem _ h2)
      simp only [List.cons_append, strLess] at h ⊢
      by_cases hed : e < d
      · simp [hed]
      · by_cases hde : d < e
        · simp [hed, hde] at h
        · simp only [hed, hde, if_false] at h ⊢
          exact ih y hx2 hy2 h

/-- In an increasing slice, everything between two occurrences of a string
is that string. -/
theorem Ascending_between {l : List GoString} (h : Ascending l) (i j k : Nat) (d : GoString)
    (hij : i ≤ j) (hjk : j ≤ k) (hi : l[i]? = some d) (hk : l[k]? = some d) :
    l[j]? = some d := by
  unfold Ascending at h
  rw [List.pairwise_iff_getElem] at h
  obtain ⟨hil, hid⟩ := List.getElem?_eq_some.mp hi
  obtain ⟨hkl, hkd⟩ := List.getElem?_eq_some.mp hk
  have hjl : j < l.length := by omega
  rcases Nat.eq_or_lt_of_le hij with rfl | hij2
  · exact hi
  rcases Nat.eq_or_lt_of_le hjk with rfl | hjk2
  · exact hk
  have h1 := h i j hil hjl hij2
  have h2 := h j k hjl hkl hjk2
  rw [hid] at h1
  rw [hkd] at h2
  rw [List.getElem?_eq_some]
  exact ⟨hjl, strLess_connected h1 h2⟩

/-- With delimiter `"/"`, the element of `extractDir` for a key
`s ++ "/" ++ rest`, where `s` has no `"/"`, is `s ++ "/"`. -/
theorem extractDir_slash_elem (s rest : GoString) (hs : (47 : Byte) ∉ s) :
    (Split (s ++ slash ++ rest) slash).headD [] ++ slash = s ++ slash := by
  have := Split_single_head 47 s rest hs
  unfold slash
  rw [this]

/-- The keys for which `parts[0]` does not panic: all of them, unless the
delimiter is empty, and then all but the empty key. -/
theorem Split_eq_nil_iff (o delim : GoString) : Split o delim = [] ↔ delim = [] ∧ o = [] := by
  by_cases hd : delim = []
  · subst hd
    rw [Split_nil_sep_eq_nil_iff]
    simp
  · constructor
    · intro h
      exact absurd h (Split_ne_nil hd)
    · intro h
      exact absurd h.1 hd

/-! ## The claims, continued -/

/-- C11: only the first segment is used by `extractDir`: with delimiter `"/"`
the call returns one element per key, and for every key that contains `"/"`
the element produced for it is a prefix of the key, ends with `"/"`, and
contains exactly one `"/"`; `"a/b/c"` and `"a/x"` both give `"a/"`. -/
theorem C11_extractDir_uses_first_segment_only (keys : List GoString) :
    (∃ out, extractDir keys slash = some out ∧ out.length = keys.length ∧
      ∀ (i : Nat) (key : GoString), keys[i]? = some key → slash <:+: key →
        ∃ d, out[i]? = some d ∧ d <+: key ∧ slash <:+ d ∧
          List.countP (fun b => decide (b = (47 : Byte))) d = 1) ∧
    extractDir [ascii "a/b/c", ascii "a/x"] slash = some [ascii "a/", ascii "a/"] := by
  refine ⟨⟨_, extractDir_of_ne_nil keys (List.cons_ne_nil _ _), by simp, ?_⟩, by decide⟩
  intro i key hkey hinf
  obtain ⟨s, rest, heq, hs⟩ := first_segment_exists hinf
  refine ⟨s ++ slash, ?_, ?_, ?_, ?_⟩
  · rw [List.getElem?_map, hkey, Option.map_some']
    congr 1
    rw [heq]
    exact extractDir_slash_elem s rest hs
  · rw [heq]
    exact ⟨rest, rfl⟩
  · exact ⟨s, rfl⟩
  · rw [List.countP_append]
    have h0 : List.countP (fun b => decide (b = (47 : Byte))) s = 0 := by
      rw [List.countP_eq_zero]
      intro b hb hb2
      rw [decide_eq_true_iff] at hb2
      exact hs (hb2 ▸ hb)
    rw [h0]
    rfl

/-- C12: with the empty prefix the prefix stage of a listing is the identity:
`filterPrefix keys "" = keys` and `removePrefix keys "" = keys`, so
`uniqueObjects` of the stage's output is strictly ascending and holds exactly
the keys, and is the key list itself when that is strictly ascending; keys
`["obj1", "obj2"]` are listed as exactly `["obj1", "obj2"]`. -/
theorem C12_empty_prefix_stage_is_identity (order : RangeOrder) (horder : order.Admissible)
    (keys : List GoString) :
    filterPrefix keys [] = keys ∧ removePrefix keys [] = keys ∧
    StrictAscending (uniqueObjects order (removePrefix (filterPrefix keys []) [])) ∧
    (∀ k, k ∈ uniqueObjects order (removePrefix (filterPrefix keys []) []) ↔ k ∈ keys) ∧
    (StrictAscending keys →
      uniqueObjects order (removePrefix (filterPrefix keys []) []) = keys) ∧
    uniqueObjects order
      (removePrefix (filterPrefix [ascii "obj1", ascii "obj2"] []) [])
        = [ascii "obj1", ascii "obj2"] := by
  have hf : ∀ ks : List GoString, filterPrefix ks [] = ks := by
    intro ks
    rw [filterPrefix_eq_filter]
    simp [HasPrefix_nil]
  have hr : ∀ ks : List GoString, removePrefix ks [] = ks := by
    intro ks
    rw [removePrefix_eq_map]
    have : (fun o : GoString => TrimPrefix o []) = id := by
      funext o
      simp [TrimPrefix, HasPrefix_nil]
    rw [this, List.map_id]
  have hu : ∀ ks : List GoString, StrictAscending ks → uniqueObjects order ks = ks := by
    intro ks hks
    obtain ⟨hs, hm⟩ := uniqueObjects_spec order horder ks
    exact StrictAscending_ext hs hks hm
  obtain ⟨hs, hm⟩ := uniqueObjects_spec order horder keys
  refine ⟨hf keys, hr keys, ?_, ?_, ?_, ?_⟩
  · rw [hf, hr]
    exact hs
  · rw [hf, hr]
    exact hm
  · intro hk
    rw [hf, hr]
    exact hu keys hk
  · rw [hf, hr]
    exact hu _ (by decide)

/-- Witness of C12: keys `["obj2", "obj1", "obj2"]`, the map visited in
reverse order. -/
theorem C12_witness :
    RangeOrder.Admissible List.reverse ∧
    (filterPrefix [ascii "obj2", ascii "obj1", ascii "obj2"] []
        = [ascii "obj2", ascii "obj1", ascii "obj2"] ∧
      removePrefix [ascii "obj2", ascii "obj1", ascii "obj2"] []
        = [ascii "obj2", ascii "obj1", ascii "obj2"] ∧
      StrictAscending (uniqueObjects List.reverse
        (removePrefix (filterPrefix [ascii "obj2", ascii "obj1", ascii "obj2"] []) [])) ∧
      (∀ k, k ∈ uniqueObjects List.reverse
          (removePrefix (filterPrefix [ascii "obj2", ascii "obj1", ascii "obj2"] []) [])
        ↔ k ∈ [ascii "obj2", ascii "obj1", ascii "obj2"]) ∧
      (StrictAscending [ascii "obj2", ascii "obj1", ascii "obj2"] →
        uniqueObjects List.reverse
          (removePrefix (filterPrefix [ascii "obj2", ascii "obj1", ascii "obj2"] []) [])
            = [ascii "obj2", ascii "obj1", ascii "obj2"]) ∧
      uniqueObjects List.reverse
        (removePrefix (filterPrefix [ascii "obj1", ascii "obj2"] []) [])
          = [ascii "obj1", ascii "obj2"]) :=
  ⟨fun l => List.reverse_perm l,
   C12_empty_prefix_stage_is_identity List.reverse (fun l => List.reverse_perm l)
     [ascii "obj2", ascii "obj1", ascii "obj2"]⟩

/-- C16: `extractDir keys delim` fails with an index out of range at
`parts[0]` if and only if `delim` is the empty string and some key is the
empty string; for every other input it completes and returns a list of the
length of `keys`, whose element for a key that does not contain `delim` is
the key followed by `"/"`. -/
theorem C16_extractDir_panics_iff_empty_delim_and_empty_key
    (keys : List GoString) (delim : GoString) :
    (extractDir keys delim = none ↔ delim = [] ∧ [] ∈ keys) ∧
    (¬ (delim = [] ∧ [] ∈ keys) →
      ∃ out, extractDir keys delim = some out ∧ out.length = keys.length ∧
        ∀ (i : Nat) (key : GoString), keys[i]? = some key → ¬ delim <:+: key →
          out[i]? = some (key ++ slash)) ∧
    extractDir [ascii "ab", []] [] = none ∧
    extractDir [ascii "ab"] [] = some [ascii "a/"] ∧
    extractDir [[]] slash = some [ascii "/"] ∧
    extractDir [ascii "a", ascii "b-c"] (ascii "-") = some [ascii "a/", ascii "b/"] := by
  have hsome : ¬ (delim = [] ∧ [] ∈ keys) → ∀ o ∈ keys, Split o delim ≠ [] := by
    intro h o ho hs
    obtain ⟨h1, h2⟩ := (Split_eq_nil_iff o delim).mp hs
    exact h ⟨h1, h2 ▸ ho⟩
  refine ⟨⟨fun h => ?_, fun h => ?_⟩, fun h => ?_, by decide, by decide, by decide, by decide⟩
  · by_contra hne
    have := extractDirLoop_some delim keys [] (hsome hne)
    unfold extractDir at h
    rw [h] at this
    exact absurd this (by simp)
  · unfold extractDir
    apply extractDirLoop_none
    exact ⟨[], h.2, (Split_eq_nil_iff [] delim).mpr ⟨h.1, rfl⟩⟩
  · refine ⟨keys.map (fun o => (Split o delim).headD [] ++ slash), ?_, by simp, ?_⟩
    · unfold extractDir
      rw [extractDirLoop_some delim keys [] (hsome h)]
      simp
    · intro i key hkey hnot
      have hd : delim ≠ [] := by
        intro hd
        exact hnot (hd ▸ List.nil_infix)
      rw [List.getElem?_map, hkey, Option.map_some', Split_without_sep hd hnot]
      rfl

/-- C17: `extractDir` preserves sort order on delimited input: for every
list of keys that is ascending in byte-wise lexicographic order and in which
every key contains `"/"`, `extractDir keys "/"` is ascending (non-decreasing),
so equal pseudo-directories are adjacent; without the condition that every key
contains `"/"` this can fail: `["a", "a!"]` gives `["a/", "a!/"]`. -/
theorem C17_extractDir_preserves_order_of_delimited_keys (keys : List GoString)
    (hasc : Ascending keys) (hdel : ∀ k ∈ keys, slash <:+: k) :
    (∃ out, extractDir keys slash = some out ∧ Ascending out ∧
      ∀ (i j k : Nat) (d : GoString), i ≤ j → j ≤ k →
        out[i]? = some d → out[k]? = some d → out[j]? = some d) ∧
    (Ascending [ascii "a", ascii "a!"] ∧
      extractDir [ascii "a", ascii "a!"] slash = some [ascii "a/", ascii "a!/"] ∧
      ¬ Ascending [ascii "a/", ascii "a!/"]) := by
  refine ⟨?_, by decide, by decide, by decide⟩
  have hout : Ascending (keys.map (fun o => (Split o slash).headD [] ++ slash)) := by
    unfold Ascending at hasc ⊢
    rw [List.pairwise_map]
    refine List.Pairwise.imp_of_mem ?_ hasc
    intro a b ha hb hab
    obtain ⟨s1, r1, h1, hs1⟩ := first_segment_exists (hdel a ha)
    obtain ⟨s2, r2, h2, hs2⟩ := first_segment_exists (hdel b hb)
    have e1 : (Split a slash).headD [] ++ slash = s1 ++ [47] := by
      rw [h1]
      exact extractDir_slash_elem s1 r1 hs1
    have e2 : (Split b slash).headD [] ++ slash = s2 ++ [47] := by
      rw [h2]
      exact extractDir_slash_elem s2 r2 hs2
    rw [e1, e2]
    cases hlt : strLess (s2 ++ [47]) (s1 ++ [47]) with
    | false => rfl
    | true =>
      have := strLess_first_segment 47 r2 r1 s2 s1 hs2 hs1 hlt
      rw [← h1, ← h2, hab] at this
      exact absurd this (by decide)
  exact ⟨_, extractDir_of_ne_nil keys (List.cons_ne_nil _ _), hout,
    fun i j k d hij hjk hi hk => Ascending_between hout i j k d hij hjk hi hk⟩

/-- Witness of C17: keys `["a!/x", "a/b", "a/c"]`. -/
theorem C17_witness :
    Ascending [ascii "a!/x", ascii "a/b", ascii "a/c"] ∧
    (∀ k ∈ [ascii "a!/x", ascii "a/b", ascii "a/c"], slash <:+: k) ∧
    ((∃ out, extractDir [ascii "a!/x", ascii "a/b", ascii "a/c"] slash = some out ∧
      Ascending out ∧
      ∀ (i j k : Nat) (d : GoString), i ≤ j → j ≤ k →
        out[i]? = some d → out[k]? = some d → out[j]? = some d) ∧
    (Ascending [ascii "a", ascii "a!"] ∧
      extractDir [ascii "a", ascii "a!"] slash = some [ascii "a/", ascii "a!/"] ∧
      ¬ Ascending [ascii "a/", ascii "a!/"])) :=
  ⟨by decide, by decide,
   C17_extractDir_preserves_order_of_delimited_keys
     [ascii "a!/x", ascii "a/b", ascii "a/c"] (by decide) (by decide)⟩

/-- C18: filtering then stripping a prefix keeps the key-space invariant: for
every strictly ascending list of keys and every prefix `pre`,
`removePrefix (filterPrefix keys pre) pre` is strictly ascending, so distinct
keys never collapse to the same suffix and their relative order is unchanged;
without the `filterPrefix` step this can fail:
`removePrefix ["ab", "b"] "a" = ["b", "b"]`. -/
theorem C18_strip_after_filter_keeps_strictly_ascending (keys : List GoString)
    (pre : GoString) (hasc : StrictAscending keys) :
    StrictAscending (removePrefix (filterPrefix keys pre) pre) ∧
    (removePrefix (filterPrefix keys pre) pre).Nodup ∧
    (StrictAscending [ascii "ab", ascii "b"] ∧
      removePrefix [ascii "ab", ascii "b"] (ascii "a") = [ascii "b", ascii "b"] ∧
      ¬ StrictAscending [ascii "b", ascii "b"]) := by
  have hs : StrictAscending (removePrefix (filterPrefix keys pre) pre) := by
    rw [removePrefix_eq_map, filterPrefix_eq_filter]
    unfold StrictAscending at hasc ⊢
    rw [List.pairwise_map]
    refine List.Pairwise.imp_of_mem ?_ (List.Pairwise.filter _ hasc)
    intro a b ha hb hab
    have pa := (HasPrefix_iff a pre).mp (List.mem_filter.mp ha).2
    have pb := (HasPrefix_iff b pre).mp (List.mem_filter.mp hb).2
    rw [← TrimPrefix_restore pa, ← TrimPrefix_restore pb, strLess_append_left] at hab
    exact hab
  exact ⟨hs, hs.nodup, by decide, by decide, by decide⟩

/-- Witness of C18: keys `["a/b", "a/c", "d"]` and prefix `"a/"`. -/
theorem C18_witness :
    StrictAscending [ascii "a/b", ascii "a/c", ascii "d"] ∧
    (StrictAscending
        (removePrefix (filterPrefix [ascii "a/b", ascii "a/c", ascii "d"] (ascii "a/"))
          (ascii "a/")) ∧
      (removePrefix (filterPrefix [ascii "a/b", ascii "a/c", ascii "d"] (ascii "a/"))
          (ascii "a/")).Nodup ∧
      (StrictAscending [ascii "ab", ascii "b"] ∧
        removePrefix [ascii "ab", ascii "b"] (ascii "a") = [ascii "b", ascii "b"] ∧
        ¬ StrictAscending [ascii "b", ascii "b"])) :=
  ⟨by decide,
   C18_strip_after_filter_keeps_strictly_ascending [ascii "a/b", ascii "a/c", ascii "d"]
     (ascii "a/") (by decide)⟩

/-- C19: for the empty delimiter the partition is degenerate: every string
contains the empty string, so `filterDelimited keys ""` is empty and
`filterNotDelimited keys "" = keys`. -/
theorem C19_empty_delimiter_degenerate_partition (keys : List GoString) :
    (∀ s : GoString, Contains s [] = true) ∧
    filterDelimited keys [] = [] ∧
    filterNotDelimited keys [] = keys := by
  have hc : ∀ s : GoString, Contains s [] = true :=
    fun s => (Contains_iff s []).mpr List.nil_infix
  refine ⟨hc, ?_, ?_⟩
  · rw [filterDelimited_eq_filter]
    simp [hc]
  · rw [filterNotDelimited_eq_filter]
    simp [hc]

/-! ## Facts about the modelled store and listing engine -/

/-- A name made of whitespace only, the empty name included, is rejected by
the validator. -/
theorem ValidateBucketName_blank {name : GoString} (h : ∀ b ∈ name, isSpace b = true) :
    ValidateBucketName name = false := by
  have h1 : name.dropWhile isSpace = [] := List.dropWhile_eq_nil_iff.mpr h
  have h2 : TrimSpace name = [] := by
    unfold TrimSpace
    rw [h1]
    rfl
  unfold ValidateBucketName
  simp [h2]

theorem findBucket_eq_none_iff (st : Store) (name : GoString) :
    findBucket st name = none ↔ name ∉ st.buckets.map Bucket.name := by
  unfold findBucket
  rw [List.find?_eq_none, List.mem_map]
  constructor
  · rintro h ⟨b, hb, rfl⟩
    exact h b hb (by simp)
  · intro h b hb hn
    rw [decide_eq_true_iff] at hn
    exact h ⟨b, hb, hn⟩

/-- A valid name that is not in the store is added at the end of the store,
with no error. -/
theorem PutBucket_fresh (st : Store) (name : GoString) (now : Nat)
    (hv : ValidateBucketName name = true) (hn : name ∉ st.buckets.map Bucket.name) :
    PutBucket st name now = (Store.mk (st.buckets ++ [Bucket.mk name now []]), none) := by
  have hf := (findBucket_eq_none_iff st name).mpr hn
  unfold PutBucket CreateBucket
  simp [hv, hf]

/-- Calls with valid, pairwise distinct names that are not in the store all
succeed and add their buckets at the end of the store, in the order of the
calls. -/
theorem putBuckets_fresh (calls : List (GoString × Nat)) :
    ∀ st : Store, (calls.map Prod.fst).Nodup →
      (∀ c ∈ calls, ValidateBucketName c.1 = true) →
      (∀ c ∈ calls, c.1 ∉ st.buckets.map Bucket.name) →
      putBuckets st calls
        = (Store.mk (st.buckets ++ calls.map (fun c => Bucket.mk c.1 c.2 [])), none) := by
  induction calls with
  | nil =>
    intro st _ _ _
    simp [putBuckets]
  | cons c rest ih =>
    intro st hnd hv hfresh
    obtain ⟨name, now⟩ := c
    rw [List.map_cons, List.nodup_cons] at hnd
    unfold putBuckets
    rw [PutBucket_fresh st name now (hv (name, now) (List.mem_cons_self _ _))
      (hfresh (name, now) (List.mem_cons_self _ _))]
    simp only []
    rw [ih _ hnd.2 (fun x hx => hv x (List.mem_cons_of_mem _ hx))]
    · simp
    · intro x hx hmem
      simp only [List.map_append, List.map_cons, List.map_nil, List.mem_append,
        List.mem_singleton] at hmem
      rcases hmem with hmem | hmem
      · exact hfresh x (List.mem_cons_of_mem _ hx) hmem
      · have hx2 : x.1 ∈ rest.map Prod.fst := List.mem_map_of_mem Prod.fst hx
        rw [hmem] at hx2
        exact hnd.1 hx2

theorem perm_insertBucket (a : Bucket) (l : List Bucket) :
    List.Perm (insertBucket a l) (a :: l) := by
  induction l with
  | nil => exact List.Perm.refl _
  | cons b l ih =>
    unfold insertBucket
    by_cases h : strLess b.name a.name = true
    · rw [if_pos h]
      exact (List.Perm.cons b ih).trans (List.Perm.swap a b l)
    · rw [if_neg h]

theorem sortBuckets_perm (l : List Bucket) : List.Perm (sortBuckets l) l := by
  induction l with
  | nil => exact List.Perm.refl _
  | cons a l ih =>
    unfold sortBuckets
    exact (perm_insertBucket a _).trans (List.Perm.cons a ih)

theorem map_name_insertBucket (a : Bucket) (l : List Bucket) :
    (insertBucket a l).map Bucket.name = insertSorted a.name (l.map Bucket.name) := by
  induction l with
  | nil => rfl
  | cons b l ih =>
    unfold insertBucket
    by_cases h : strLess b.name a.name = true
    · simp only [if_pos h, List.map_cons, insertSorted, ih]
    · simp only [if_neg h, List.map_cons, insertSorted]

/-- The names of the buckets sorted by name are the sorted names. -/
theorem map_name_sortBuckets (l : List Bucket) :
    (sortBuckets l).map Bucket.name = Strings (l.map Bucket.name) := by
  induction l with
  | nil => rfl
  | cons a l ih =>
    unfold sortBuckets
    rw [map_name_insertBucket, ih]
    rfl

/-- The entries returned by `listPage` for a bounded `maxKeys = k`: there are
at most `k` of them, objects and common prefixes together, and each is
greater than the marker. -/
theorem listPage_bounded (order : RangeOrder) (objects : List Item)
    (pre marker delim : GoString) (k : Nat) :
    (listPage order objects pre marker delim (some k)).objects.length
        + (listPage order objects pre marker delim (some k)).commonPrefixes.length ≤ k ∧
    (∀ o ∈ (listPage order objects pre marker delim (some k)).objects,
      strLess marker o.key = true) ∧
    (∀ d ∈ (listPage order objects pre marker delim (some k)).commonPrefixes,
      strLess marker d = true) := by
  have hmem : ∀ e ∈ ((listCandidates order objects pre delim).filter
      (fun e => strLess marker (pre ++ e.name))).take k,
      strLess marker (pre ++ e.name) = true := by
    intro e he
    exact (List.mem_filter.mp (List.mem_of_mem_take he)).2
  refine ⟨?_, ?_, ?_⟩
  · simp only [listPage, List.length_map]
    have h1 := List.length_eq_countP_add_countP (fun e : Entry => e.isDir)
      (((listCandidates order objects pre delim).filter
        (fun e => strLess marker (pre ++ e.name))).take k)
    have h2 := List.length_take_le k ((listCandidates order objects pre delim).filter
      (fun e => strLess marker (pre ++ e.name)))
    simp only [List.countP_eq_length_filter] at h1
    have h3 : (fun e : Entry => decide ¬ (e.isDir = true)) = (fun e : Entry => !e.isDir) := by
      funext e
      cases e.isDir <;> rfl
    rw [h3] at h1
    omega
  · intro o ho
    simp only [listPage, List.mem_map, List.mem_filter] at ho
    obtain ⟨e, ⟨he, _⟩, rfl⟩ := ho
    exact hmem e he
  · intro d hd
    simp only [listPage, List.mem_map, List.mem_filter] at hd
    obtain ⟨e, ⟨he, _⟩, rfl⟩ := hd
    exact hmem e he

/-! ## The claims about the modelled store and listing engine -/

/-- C13: for every store, bucket, prefix, marker, delimiter and bounded
`maxKeys = k`, `ListObjects` fails only with `NoSuchBucket`, when the bucket is
absent, and otherwise returns at most `k` entries in total, objects and common
prefixes counted together, and every returned entry, object key or common
prefix, is strictly greater than the marker in sort order. -/
theorem C13_ListObjects_at_most_maxKeys_entries_all_after_marker
    (order : RangeOrder) (st : Store) (bucket pre marker delim : GoString) (k : Nat) :
    match ListObjects order st bucket pre marker delim (some k) with
    | Except.ok page =>
      page.objects.length + page.commonPrefixes.length ≤ k ∧
      (∀ o ∈ page.objects, strLess marker o.key = true) ∧
      (∀ d ∈ page.commonPrefixes, strLess marker d = true)
    | Except.error e => e = StoreError.NoSuchBucket ∧ findBucket st bucket = none := by
  unfold ListObjects
  cases hb : findBucket st bucket with
  | none => exact ⟨rfl, rfl⟩
  | some b => exact listPage_bounded order b.objects pre marker delim k

/-- C14: for every sequence of `PutBucket` calls with valid, pairwise distinct
names, in any order of creation, every call succeeds and `ListBuckets` then
returns, with no error, exactly the created buckets sorted ascending by name;
on a store with no buckets it returns an empty sequence and no error;
creating `"foo"` then `"bar"` lists `["bar", "foo"]`, and adding `"foobar"`
lists `["bar", "foo", "foobar"]`. -/
theorem C14_ListBuckets_sorted_ascending_by_name (calls : List (GoString × Nat))
    (hdistinct : (calls.map Prod.fst).Nodup)
    (hvalid : ∀ c ∈ calls, ValidateBucketName c.1 = true) :
    (∃ st, putBuckets (Store.mk []) calls = (st, none) ∧
      (ListBuckets st).2 = none ∧
      List.Perm (ListBuckets st).1 (calls.map (fun c => Bucket.mk c.1 c.2 [])) ∧
      (ListBuckets st).1.map Bucket.name = Strings (calls.map Prod.fst) ∧
      StrictAscending ((ListBuckets st).1.map Bucket.name)) ∧
    ListBuckets (Store.mk []) = ([], none) ∧
    (putBuckets (Store.mk []) [(ascii "foo", 1), (ascii "bar", 2)]).2 = none ∧
    (ListBuckets (putBuckets (Store.mk []) [(ascii "foo", 1), (ascii "bar", 2)]).1).1.map
        Bucket.name = [ascii "bar", ascii "foo"] ∧
    (PutBucket (putBuckets (Store.mk []) [(ascii "foo", 1), (ascii "bar", 2)]).1
        (ascii "foobar") 3).2 = none ∧
    (ListBuckets (PutBucket (putBuckets (Store.mk []) [(ascii "foo", 1), (ascii "bar", 2)]).1
        (ascii "foobar") 3).1).1.map Bucket.name
      = [ascii "bar", ascii "foo", ascii "foobar"] := by
  refine ⟨?_, by decide, by decide, by decide, by decide, by decide⟩
  have hput := putBuckets_fresh calls (Store.mk []) hdistinct hvalid
    (fun c _ h => absurd h (List.not_mem_nil _))
  rw [List.nil_append] at hput
  have hnames : (calls.map (fun c => Bucket.mk c.1 c.2 [])).map Bucket.name
      = calls.map Prod.fst := by
    rw [List.map_map]
    rfl
  refine ⟨_, hput, rfl, sortBuckets_perm _, ?_, ?_⟩
  · show (sortBuckets _).map Bucket.name = _
    rw [map_name_sortBuckets, hnames]
  · show StrictAscending ((sortBuckets _).map Bucket.name)
    rw [map_name_sortBuckets, hnames]
    exact StrictAscending_of_nodup (Strings_ascending _)
      ((Strings_perm _).nodup_iff.mpr hdistinct)

/-- Witness of C14: `"foo"`, `"bar"` and `"foobar"` created in that order. -/
theorem C14_witness :
    ([(ascii "foo", 1), (ascii "bar", 2), (ascii "foobar", 3)].map Prod.fst).Nodup ∧
    (∀ c ∈ [(ascii "foo", 1), (ascii "bar", 2), (ascii "foobar", 3)],
      ValidateBucketName c.1 = true) ∧
    ((∃ st, putBuckets (Store.mk []) [(ascii "foo", 1), (ascii "bar", 2), (ascii "foobar", 3)]
        = (st, none) ∧
      (ListBuckets st).2 = none ∧
      List.Perm (ListBuckets st).1
        ([(ascii "foo", 1), (ascii "bar", 2), (ascii "foobar", 3)].map
          (fun c => Bucket.mk c.1 c.2 [])) ∧
      (ListBuckets st).1.map Bucket.name
        = Strings ([(ascii "foo", 1), (ascii "bar", 2), (ascii "foobar", 3)].map Prod.fst) ∧
      StrictAscending ((ListBuckets st).1.map Bucket.name)) ∧
    ListBuckets (Store.mk []) = ([], none) ∧
    (putBuckets (Store.mk []) [(ascii "foo", 1), (ascii "bar", 2)]).2 = none ∧
    (ListBuckets (putBuckets (Store.mk []) [(ascii "foo", 1), (ascii "bar", 2)]).1).1.map
        Bucket.name = [ascii "bar", ascii "foo"] ∧
    (PutBucket (putBuckets (Store.mk []) [(ascii "foo", 1), (ascii "bar", 2)]).1
        (ascii "foobar") 3).2 = none ∧
    (ListBuckets (PutBucket (putBuckets (Store.mk []) [(ascii "foo", 1), (ascii "bar", 2)]).1
        (ascii "foobar") 3).1).1.map Bucket.name
      = [ascii "bar", ascii "foo", ascii "foobar"]) :=
  ⟨by decide, by decide,
   C14_ListBuckets_sorted_ascending_by_name
     [(ascii "foo", 1), (ascii "bar", 2), (ascii "foobar", 3)] (by decide) (by decide)⟩

/-- C15: for every bucket name that is empty or consists only of whitespace,
`PutBucket name` fails with an error and no bucket is created: the store is
left as it was; `PutBucket ""` and `PutBucket " "` both return an error. -/
theorem C15_PutBucket_rejects_blank_names (st : Store) (name : GoString) (now : Nat)
    (hblank : ∀ b ∈ name, isSpace b = true) :
    PutBucket st name now = (st, some StoreError.InvalidName) ∧
    (PutBucket st name now).2 ≠ none ∧
    (PutBucket st name now).1 = st ∧
    PutBucket st [] now = (st, some StoreError.InvalidName) ∧
    PutBucket st (ascii " ") now = (st, some StoreError.InvalidName) := by
  have key : ∀ n : GoString, (∀ b ∈ n, isSpace b = true) →
      PutBucket st n now = (st, some StoreError.InvalidName) := by
    intro n hn
    unfold PutBucket
    rw [if_pos (ValidateBucketName_blank hn)]
  have h := key name hblank
  have hsp : ∀ b ∈ ascii " ", isSpace b = true := by
    have h32 : ascii " " = [32] := by decide
    rw [h32]
    intro b hb
    rw [List.mem_singleton] at hb
    subst hb
    decide
  refine ⟨h, ?_, ?_, key [] (fun b hb => absurd hb (List.not_mem_nil b)), key (ascii " ") hsp⟩
  · rw [h]
    exact fun e => Option.noConfusion e
  · rw [h]

/-- Witness of C15: the name `" \t "` put into a store that holds the bucket
`"foo"`. -/
theorem C15_witness :
    (∀ b ∈ ([32, 9, 32] : GoString), isSpace b = true) ∧
    (PutBucket (Store.mk [Bucket.mk (ascii "foo") 0 []]) [32, 9, 32] 7
        = (Store.mk [Bucket.mk (ascii "foo") 0 []], some StoreError.InvalidName) ∧
      (PutBucket (Store.mk [Bucket.mk (ascii "foo") 0 []]) [32, 9, 32] 7).2 ≠ none ∧
      (PutBucket (Store.mk [Bucket.mk (ascii "foo") 0 []]) [32, 9, 32] 7).1
        = Store.mk [Bucket.mk (ascii "foo") 0 []] ∧
      PutBucket (Store.mk [Bucket.mk (ascii "foo") 0 []]) [] 7
        = (Store.mk [Bucket.mk (ascii "foo") 0 []], some StoreError.InvalidName) ∧
      PutBucket (Store.mk [Bucket.mk (ascii "foo") 0 []]) (ascii " ") 7
        = (Store.mk [Bucket.mk (ascii "foo") 0 []], some StoreError.InvalidName)) :=
  ⟨by
     intro b hb
     simp only [List.mem_cons, List.mem_singleton, List.not_mem_nil, or_false] at hb
     rcases hb with rfl | rfl | rfl <;> decide,
   C15_PutBucket_rejects_blank_names (Store.mk [Bucket.mk (ascii "foo") 0 []]) [32, 9, 32] 7
     (by
       intro b hb
       simp only [List.mem_cons, List.mem_singleton, List.not_mem_nil, or_false] at hb
       rcases hb with rfl | rfl | rfl <;> decide)⟩

/-! ## Evaluations on concrete inputs -/

theorem ascii_eval : ascii "a/b" = [97, 47, 98] := by decide

theorem Split_eval_slash :
    Split (ascii "a/b/c") slash = [ascii "a", ascii "b", ascii "c"] := by decide

theorem Split_eval_two_byte_sep :
    Split (ascii "a--b-c") (ascii "--") = [ascii "a", ascii "b-c"] := by decide

theorem Split_eval_empty_sep :
    Split (ascii "abc") [] = [ascii "a", ascii "b", ascii "c"] ∧
    Split [0xE2, 0x82, 0xAC, 97] [] = [[0xE2, 0x82, 0xAC], [97]] ∧
    Split [] [] = [] ∧ Split [] slash = [[]] := by decide

theorem extractDir_eval :
    extractDir [ascii "a/b", ascii "a/c", ascii "d"] slash
      = some [ascii "a/", ascii "a/", ascii "d/"] := by decide

theorem uniqueObjects_eval :
    uniqueObjects List.reverse [ascii "b", ascii "a", ascii "b"] = [ascii "a", ascii "b"] ∧
    uniqueObjects id [ascii "b", ascii "a", ascii "b"] = [ascii "a", ascii "b"] := by decide

/-- The modelled `ListObjects` on the examples of section 8 of the
specification: keys `a/b`, `a/c`, `d` listed with delimiter `"/"`, then with
prefix `"a/"`, then one entry at a time; keys `obj1`, `obj2`. -/
theorem ListObjects_eval :
    listPage id [Item.mk (ascii "a/b") 1, Item.mk (ascii "d") 2, Item.mk (ascii "a/c") 3]
        [] [] slash none
      = ListingPage.mk [Item.mk (ascii "d") 2] [ascii "a/"] false [] ∧
    listPage id [Item.mk (ascii "a/b") 1, Item.mk (ascii "d") 2, Item.mk (ascii "a/c") 3]
        (ascii "a/") [] slash none
      = ListingPage.mk [Item.mk (ascii "a/b") 1, Item.mk (ascii "a/c") 3] [] false [] ∧
    listPage id [Item.mk (ascii "a/b") 1, Item.mk (ascii "d") 2, Item.mk (ascii "a/c") 3]
        [] [] slash (some 1)
      = ListingPage.mk [] [ascii "a/"] true (ascii "a/") ∧
    listPage id [Item.mk (ascii "a/b") 1, Item.mk (ascii "d") 2, Item.mk (ascii "a/c") 3]
        [] (ascii "a/") slash (some 1)
      = ListingPage.mk [Item.mk (ascii "d") 2] [] false [] ∧
    listPage id [Item.mk (ascii "obj2") 3, Item.mk (ascii "obj1") 3] [] [] [] none
      = ListingPage.mk [Item.mk (ascii "obj1") 3, Item.mk (ascii "obj2") 3] [] false [] := by
  decide

/-- The modelled `ListObjects` paging under a prefix: keys `a/b`, `a/c`, `a/d`
listed with prefix `"a/"` one entry at a time, each call taking as marker the
next marker of the page before, re-prefixed; the three pages hold `a/b`,
`a/c` and `a/d`, with no overlap and no gap. -/
theorem ListObjects_eval_paging :
    listPage id [Item.mk (ascii "a/b") 1, Item.mk (ascii "a/c") 2, Item.mk (ascii "a/d") 3]
        (ascii "a/") [] [] (some 1)
      = ListingPage.mk [Item.mk (ascii "a/b") 1] [] true (ascii "b") ∧
    listPage id [Item.mk (ascii "a/b") 1, Item.mk (ascii "a/c") 2, Item.mk (ascii "a/d") 3]
        (ascii "a/") (ascii "a/" ++ ascii "b") [] (some 1)
      = ListingPage.mk [Item.mk (ascii "a/c") 2] [] true (ascii "c") ∧
    listPage id [Item.mk (ascii "a/b") 1, Item.mk (ascii "a/c") 2, Item.mk (ascii "a/d") 3]
        (ascii "a/") (ascii "a/" ++ ascii "c") [] (some 1)
      = ListingPage.mk [Item.mk (ascii "a/d") 3] [] false [] := by
  decide

/-- The modelled `ListObjects` one level down: keys `a/b/c`, `a/b/d`, `a/e`
listed with prefix `"a/"` and delimiter `"/"` give the object `a/e` and the
common prefix `a/b/`, which is the prefix of the next query; keys `a`, `ab`
listed with prefix `"a"` and no marker give both keys. -/
theorem ListObjects_eval_prefixed :
    listPage id [Item.mk (ascii "a/b/c") 1, Item.mk (ascii "a/b/d") 2, Item.mk (ascii "a/e") 3]
        (ascii "a/") [] slash none
      = ListingPage.mk [Item.mk (ascii "a/e") 3] [ascii "a/b/"] false [] ∧
    listPage id [Item.mk (ascii "a/b/c") 1, Item.mk (ascii "a/b/d") 2, Item.mk (ascii "a/e") 3]
        (ascii "a/b/") [] slash none
      = ListingPage.mk [Item.mk (ascii "a/b/c") 1, Item.mk (ascii "a/b/d") 2] [] false [] ∧
    listPage id [Item.mk (ascii "a") 1, Item.mk (ascii "ab") 2] (ascii "a") [] [] none
      = ListingPage.mk [Item.mk (ascii "a") 1, Item.mk (ascii "ab") 2] [] false [] ∧
    listPage id [Item.mk (ascii "az") 1] (ascii "a") (ascii "b") [] (some 10)
      = ListingPage.mk [] [] false [] := by
  decide

end Donut
